import Mathlib

/-!
# taihoCFD: the two SIMPLE drivers

A shallow embedding of `solver_parallel.cpp` (the steady-variant driver) and
`solver_simple_unsteady.cpp` (the unsteady driver): the residual
normalisation and convergence test, the MPI reductions that drive the outer
loop, the start-up checks, the loading of the initial fields, and the order
in which each driver calls the numerical kernels.

Conventions.
* `Double` models the values of a C++ `double` by exact rationals. The
  comparisons and the stored values are modelled; rounding, infinities and
  NaN are not.
* A C++ `int` is an `Int` within the 32-bit range. The only `int` arithmetic
  that can leave the range is `++i` and `inter++` of the time-stepping loop;
  signed overflow, undefined in C++, is modelled there as two's-complement
  wrap-around (`wrapInt32`). Loops take explicit fuel.
* `IEEEDouble` adds NaN and the infinities to the finite values, for the
  statements that depend on them.
* The processes of `MPI_COMM_WORLD` run in lockstep between collectives; a
  collective is a function of the values contributed by the ranks, listed in
  rank order.
-/

namespace TaihoCFD

/-- The finite values of a C++ `double`, modelled by exact rationals; NaN and
the infinities are in `IEEEDouble`. -/
abbrev Double := ℚ

/-! ## MPI reductions -/

/-- `MPI_Allreduce(..., MPI_MIN, MPI_COMM_WORLD)` on one value per rank: every
rank receives the minimum of the contributed values (listed in rank order).
The communicator is never empty; the empty list is given a default. -/
def MPI_Allreduce_MIN {α : Type} [Min α] [Inhabited α] : List α → α
  | [] => default
  | x :: xs => xs.foldl min x

/-- `MPI_Allreduce(..., MPI_MAX, MPI_COMM_WORLD)` on one value per rank. -/
def MPI_Allreduce_MAX {α : Type} [Max α] [Inhabited α] : List α → α
  | [] => default
  | x :: xs => xs.foldl max x

/-! ## The calls made by the drivers -/

/-- The arrays the drivers name: the fields of `Mesh` and `equ_u.A_p`. -/
inductive FieldId
  | u | u0 | u_star | v | v0 | v_star | p | p_star | p_prime | u_face | v_face | A_p
deriving DecidableEq, Repr

/-- The three `Equation` objects of `main`. -/
inductive EqId
  | equ_u | equ_v | equ_p
deriving DecidableEq, Repr

/-- One statement of `main` that acts on the mesh, the equations or MPI. -/
inductive Call
  | MPI_Init
  | MPI_Barrier
  | MPI_Finalize
  | MPI_Abort (code : Int)
  | setZero (f : FieldId)
  | loadMeshDataFromSteady
  | beginTimeStep (i : Int)
  | initializeToZero (e : EqId)
  | momentum_function_unsteady (mu dt alpha_uv : Double)
  | build_matrix (e : EqId)
  | CG_parallel (e : EqId) (epsilon : Double) (max_iter : Nat)
  | vectorToMatrix (f : FieldId)
  | exchangeColumns (f : FieldId)
  | face_velocity
  | pressure_function
  | correct_pressure (alpha_p : Double)
  | correct_velocity
  | assign (dst src : FieldId)
  | saveMeshData
deriving DecidableEq, Repr

/-- How a run of `main` ends. -/
inductive Exit
  | returned (code : Int)
  | aborted (code : Int)
deriving DecidableEq, Repr

/-- The locals of `main` that persist across time steps, and the calls made so
far (oldest first). -/
structure Driver where
  alpha_p : Double
  alpha_uv : Double
  inter : Int
  log : List Call
deriving DecidableEq, Repr

/-- `computePressureRelaxationFactor` of `solver_parallel.cpp`. -/
def computePressureRelaxationFactor (iter : Int) : Double :=
  if iter < 15 then 5 / 100 else 15 / 100

/-- `computeMomentumRelaxationFactor` of `solver_parallel.cpp`. -/
def computeMomentumRelaxationFactor (iter : Int) : Double :=
  if iter < 15 then 3 / 10 else 3 / 10

/-- The statements `mesh.u0.setZero(); ... mesh.p_star.setZero();` of both
drivers, in source order. -/
def zeroFieldsCalls : List Call :=
  [.setZero .u0, .setZero .v0, .setZero .u_star, .setZero .v_star, .setZero .u_face,
   .setZero .v_face, .setZero .u, .setZero .v, .setZero .p, .setZero .p_prime,
   .setZero .p_star]

/-- The body of the outer loop of `solver_parallel.cpp` up to the residual
bookkeeping (source lines 296 to 389). -/
def steadyOuterBody (mu dt alpha_uv alpha_p : Double) : List Call :=
  [.MPI_Barrier, .setZero .u, .setZero .v, .initializeToZero .equ_v,
   .initializeToZero .equ_u, .momentum_function_unsteady mu dt alpha_uv,
   .build_matrix .equ_u, .build_matrix .equ_v,
   .CG_parallel .equ_u (1 / 10 ^ 5) 25, .CG_parallel .equ_v (1 / 10 ^ 5) 25,
   .vectorToMatrix .u, .vectorToMatrix .v,
   .exchangeColumns .u, .exchangeColumns .v, .exchangeColumns .A_p,
   .face_velocity, .exchangeColumns .u_face, .exchangeColumns .v_face,
   .initializeToZero .equ_p, .pressure_function, .build_matrix .equ_p,
   .setZero .p_prime, .setZero .p_star,
   .CG_parallel .equ_p (1 / 10 ^ 6) 150, .vectorToMatrix .p_prime,
   .exchangeColumns .p_prime, .correct_pressure alpha_p, .correct_velocity,
   .assign .p .p_star, .exchangeColumns .p]

/-- The body of the outer loop of `solver_simple_unsteady.cpp` up to the
residual bookkeeping (source lines 359 to 456). -/
def unsteadyOuterBody (mu dt alpha_uv alpha_p : Double) : List Call :=
  [.MPI_Barrier, .setZero .u, .setZero .v, .initializeToZero .equ_v,
   .initializeToZero .equ_u, .momentum_function_unsteady mu dt alpha_uv,
   .build_matrix .equ_u, .build_matrix .equ_v,
   .CG_parallel .equ_u (1 / 10 ^ 5) 15, .CG_parallel .equ_v (1 / 10 ^ 5) 15,
   .vectorToMatrix .u, .vectorToMatrix .v,
   .exchangeColumns .u, .exchangeColumns .v, .exchangeColumns .A_p,
   .face_velocity, .MPI_Barrier,
   .initializeToZero .equ_p, .pressure_function, .build_matrix .equ_p,
   .setZero .p_prime,
   .CG_parallel .equ_p (1 / 10 ^ 2) 100, .vectorToMatrix .p_prime,
   .MPI_Barrier, .exchangeColumns .p_prime, .MPI_Barrier,
   .correct_pressure alpha_p, .correct_velocity,
   .assign .p .p_star, .MPI_Barrier, .exchangeColumns .p, .MPI_Barrier]

/-! ## Residuals and the convergence test (both drivers) -/

/-- The three residual norms that the calls of `CG_parallel` return in one
outer iteration (`l2_norm_x`, `l2_norm_y`, `l2_norm_p`). -/
structure Residuals where
  l2_norm_x : Double
  l2_norm_y : Double
  l2_norm_p : Double
deriving DecidableEq, Repr

/-- The residual baselines `init_l2_norm_x/y/p` of one rank. -/
structure InitNorms where
  init_l2_norm_x : Double
  init_l2_norm_y : Double
  init_l2_norm_p : Double
deriving DecidableEq, Repr

/-- The baselines at the start of a time step:
`double init_l2_norm_x = -1.0;` and likewise for `y` and `p`. -/
def InitNorms.start : InitNorms := ⟨-1, -1, -1⟩

/-- `if (n == 1) { init_l2_norm_x = l2_norm_x; ... }`. -/
def recordInitial (n : Nat) (init : InitNorms) (r : Residuals) : InitNorms :=
  if n = 1 then ⟨r.l2_norm_x, r.l2_norm_y, r.l2_norm_p⟩ else init

/-- `(init > 1e-200) ? l2 / init : 0.0`. -/
def norm_res (init l2 : Double) : Double :=
  if init > 1 / 10 ^ 200 then l2 / init else 0

/-- `int local_converged = (norm_res_x < 1e-1) && (norm_res_y < 1e-1) &&
(norm_res_p < 1e-3);` the conjunction, converted from `bool` to `int`. -/
def local_converged (norm_res_x norm_res_y norm_res_p : Double) : Int :=
  if (decide (norm_res_x < 1 / 10) && decide (norm_res_y < 1 / 10)
      && decide (norm_res_p < 1 / 1000)) = true then 1 else 0

/-- What one rank computes at the end of an outer iteration. -/
structure RankRecord where
  norm_res_x : Double
  norm_res_y : Double
  norm_res_p : Double
  local_converged : Int
deriving DecidableEq, Repr

/-- The end of the body of the outer loop on one rank, from
`if (n == 1)` to the definition of `local_converged`. -/
def convergenceCheck (n : Nat) (init : InitNorms) (r : Residuals) :
    InitNorms × RankRecord :=
  let init1 := recordInitial n init r
  let norm_res_x := norm_res init1.init_l2_norm_x r.l2_norm_x
  let norm_res_y := norm_res init1.init_l2_norm_y r.l2_norm_y
  let norm_res_p := norm_res init1.init_l2_norm_p r.l2_norm_p
  (init1, ⟨norm_res_x, norm_res_y, norm_res_p,
           local_converged norm_res_x norm_res_y norm_res_p⟩)

/-- `if(global_converged) { ... break; }` where `global_converged` is the
`MPI_MIN` all-reduce of the ranks' `local_converged`. -/
def loopBreaks (flags : List Int) : Bool :=
  MPI_Allreduce_MIN flags != 0

/-- One outer iteration as seen by all ranks. -/
structure IterRecord where
  n : Nat
  ranks : List RankRecord
  global_converged : Int
deriving DecidableEq, Repr

/-- The convergence part of outer iteration `n` on the `P` ranks:
`inits r` is the baseline held by rank `r`, `res r` the residuals its solver
calls returned in this iteration. -/
def outerIteration (P n : Nat) (inits : Nat → InitNorms) (res : Nat → Residuals) :
    (Nat → InitNorms) × IterRecord :=
  let ranks := (List.range P).map (fun r => (convergenceCheck n (inits r) (res r)).2)
  (fun r => (convergenceCheck n (inits r) (res r)).1,
   ⟨n, ranks, MPI_Allreduce_MIN (ranks.map (fun k => k.local_converged))⟩)

/-- The loop `for(int n=1;n<=max_outer_iterations;n++) { ... }` of one time
step. `body` lists the calls of the loop body before the residual
bookkeeping, `res n r` is what the solver calls of rank `r` return in
iteration `n`. Every executed iteration contributes its record and the calls
it made: the body, and, unless `break` is taken, the closing `MPI_Barrier`.
The first numeric argument is fuel, the second the counter `n`. -/
def outerLoopFrom (max_outer_iterations P : Nat) (body : List Call)
    (res : Nat → Nat → Residuals) :
    Nat → Nat → (Nat → InitNorms) → List (IterRecord × List Call)
  | 0, _, _ => []
  | fuel + 1, n, inits =>
    if n ≤ max_outer_iterations then
      let step := outerIteration P n inits (res n)
      if loopBreaks (step.2.ranks.map (fun k => k.local_converged)) then
        [(step.2, body)]
      else
        (step.2, body ++ [Call.MPI_Barrier])
          :: outerLoopFrom max_outer_iterations P body res fuel (n + 1) step.1
    else []

/-- The outer loop of one time step, from `n = 1` with the baselines at
`-1.0`; `max_outer_iterations` passes of fuel let the counter reach the cap. -/
def outerLoop (max_outer_iterations P : Nat) (body : List Call)
    (res : Nat → Nat → Residuals) : List (IterRecord × List Call) :=
  outerLoopFrom max_outer_iterations P body res max_outer_iterations 1
    (fun _ => InitNorms.start)

/-! ## The convergence test with NaN and the infinities -/

/-- A C++ `double` with its special values: NaN, the two infinities, or a
finite value. Finite values are exact rationals: rounding and the sign of
zero are not modelled. -/
inductive IEEEDouble
  | nan
  | posInf
  | negInf
  | finite (q : ℚ)
deriving DecidableEq, Repr

/-- The comparison `a < b` of two doubles: false as soon as one is NaN. -/
def IEEEDouble.lt : IEEEDouble → IEEEDouble → Bool
  | .finite a, .finite b => decide (a < b)
  | .negInf, .finite _ => true
  | .negInf, .posInf => true
  | .finite _, .posInf => true
  | _, _ => false

/-- The comparison `a > b`. -/
def IEEEDouble.gt (a b : IEEEDouble) : Bool := IEEEDouble.lt b a

/-- The comparison `a <= b`: false as soon as one is NaN. -/
def IEEEDouble.le : IEEEDouble → IEEEDouble → Bool
  | .nan, _ => false
  | _, .nan => false
  | a, b => !IEEEDouble.lt b a

/-- The quotient `a / b`: NaN from a NaN operand, from `inf / inf` and from
`0 / 0`; an infinity from an infinite dividend or a zero divisor; zero from
a finite dividend and an infinite divisor; the exact quotient otherwise. -/
def IEEEDouble.div : IEEEDouble → IEEEDouble → IEEEDouble
  | .nan, _ => .nan
  | _, .nan => .nan
  | .posInf, .posInf => .nan
  | .posInf, .negInf => .nan
  | .negInf, .posInf => .nan
  | .negInf, .negInf => .nan
  | .posInf, .finite b => if 0 ≤ b then .posInf else .negInf
  | .negInf, .finite b => if 0 ≤ b then .negInf else .posInf
  | .finite _, .posInf => .finite 0
  | .finite _, .negInf => .finite 0
  | .finite a, .finite b =>
    if b = 0 then (if a = 0 then .nan else if 0 < a then .posInf else .negInf)
    else .finite (a / b)

/-- The three residual norms of one outer iteration, as doubles with their
special values. -/
structure ResidualsIEEE where
  l2_norm_x : IEEEDouble
  l2_norm_y : IEEEDouble
  l2_norm_p : IEEEDouble
deriving DecidableEq, Repr

/-- The residual baselines of one rank, as doubles with their special
values. -/
structure InitNormsIEEE where
  init_l2_norm_x : IEEEDouble
  init_l2_norm_y : IEEEDouble
  init_l2_norm_p : IEEEDouble
deriving DecidableEq, Repr

/-- `double init_l2_norm_x = -1.0;` and likewise for `y` and `p`. -/
def InitNormsIEEE.start : InitNormsIEEE := ⟨.finite (-1), .finite (-1), .finite (-1)⟩

/-- `if (n == 1) { init_l2_norm_x = l2_norm_x; ... }`. -/
def recordInitialIEEE (n : Nat) (init : InitNormsIEEE) (r : ResidualsIEEE) :
    InitNormsIEEE :=
  if n = 1 then ⟨r.l2_norm_x, r.l2_norm_y, r.l2_norm_p⟩ else init

/-- `(init > 1e-200) ? l2 / init : 0.0`. -/
def norm_resIEEE (init l2 : IEEEDouble) : IEEEDouble :=
  if IEEEDouble.gt init (.finite (1 / 10 ^ 200)) = true then IEEEDouble.div l2 init
  else .finite 0

/-- `int local_converged = (norm_res_x < 1e-1) && (norm_res_y < 1e-1) &&
(norm_res_p < 1e-3);`. -/
def local_convergedIEEE (norm_res_x norm_res_y norm_res_p : IEEEDouble) : Int :=
  if (IEEEDouble.lt norm_res_x (.finite (1 / 10))
      && IEEEDouble.lt norm_res_y (.finite (1 / 10))
      && IEEEDouble.lt norm_res_p (.finite (1 / 1000))) = true then 1 else 0

/-- What one rank computes at the end of an outer iteration, as doubles with
their special values. -/
structure RankRecordIEEE where
  norm_res_x : IEEEDouble
  norm_res_y : IEEEDouble
  norm_res_p : IEEEDouble
  local_converged : Int
deriving DecidableEq, Repr

/-- The end of the body of the outer loop on one rank, from `if (n == 1)` to
the definition of `local_converged`, on doubles with their special values. -/
def convergenceCheckIEEE (n : Nat) (init : InitNormsIEEE) (r : ResidualsIEEE) :
    InitNormsIEEE × RankRecordIEEE :=
  let init1 := recordInitialIEEE n init r
  let norm_res_x := norm_resIEEE init1.init_l2_norm_x r.l2_norm_x
  let norm_res_y := norm_resIEEE init1.init_l2_norm_y r.l2_norm_y
  let norm_res_p := norm_resIEEE init1.init_l2_norm_p r.l2_norm_p
  (init1, ⟨norm_res_x, norm_res_y, norm_res_p,
           local_convergedIEEE norm_res_x norm_res_y norm_res_p⟩)

/-- The finite residuals `r` as doubles with special values. -/
def Residuals.toIEEE (r : Residuals) : ResidualsIEEE :=
  ⟨.finite r.l2_norm_x, .finite r.l2_norm_y, .finite r.l2_norm_p⟩

/-- The record `k` over finite values as a record over doubles with special
values. -/
def RankRecord.toIEEE (k : RankRecord) : RankRecordIEEE :=
  ⟨.finite k.norm_res_x, .finite k.norm_res_y, .finite k.norm_res_p, k.local_converged⟩

/-- The same loop `for(int n=1;n<=max_outer_iterations;n++) { ... }` as run
by one rank on its own: `res n` are the residuals its solver calls return in
iteration `n`, and `reduced n` is the value that
`MPI_Allreduce(&local_converged, &global_converged, ...)` hands back to it in
iteration `n`. The result lists, for every iteration the rank executes, the
`local_converged` it contributed. The first numeric argument is fuel, the
second the counter `n`. -/
def rankLoopFrom (max_outer_iterations : Nat) (res : Nat → Residuals)
    (reduced : Nat → Int) : Nat → Nat → InitNorms → List Int
  | 0, _, _ => []
  | fuel + 1, n, init =>
    if n ≤ max_outer_iterations then
      let step := convergenceCheck n init (res n)
      let global_converged := reduced n
      if global_converged ≠ 0 then [step.2.local_converged]
      else
        step.2.local_converged
          :: rankLoopFrom max_outer_iterations res reduced fuel (n + 1) step.1
    else []

/-- The outer loop of one time step on one rank, from `n = 1` with the
baselines at `-1.0`. -/
def rankLoop (max_outer_iterations : Nat) (res : Nat → Residuals)
    (reduced : Nat → Int) : List Int :=
  rankLoopFrom max_outer_iterations res reduced max_outer_iterations 1 InitNorms.start

/-! ## Start-up of the unsteady driver: broadcast and consistency check -/

/-- The run parameters held by one rank: the five command-line values and
the globals `dx`, `dy` filled in by `readParams`. -/
structure Config where
  mesh_folder : String
  dt : Double
  timesteps : Int
  mu : Double
  n_splits : Int
  dx : Double
  dy : Double
deriving DecidableEq, Repr

/-- `MPI_Bcast(&x, ..., 0, MPI_COMM_WORLD)` as seen by one rank: whatever the
rank held in `x`, it holds the value of rank 0 afterwards. -/
def MPI_Bcast {α : Type} (root_value _local_value : α) : α := root_value

/-- `MPI_Allgather` of one string per rank: every rank receives the strings of
all ranks in rank order. (Every rank passes its own length as the count; the
call is defined by MPI only when these agree, and the model takes the
strings as delivered.) -/
def MPI_Allgather (local_strs : List String) : List String := local_strs

/-- The broadcasts of `main` in `solver_simple_unsteady.cpp`, in the order of
the source: `dx`, `dy`, the folder string, `dt`, `timesteps`, `mu`,
`n_splits`, each from rank 0. The list holds one `Config` per rank. -/
def broadcastConfig : List Config → List Config
  | [] => []
  | root :: rest =>
    (root :: rest).map (fun c =>
      { dx := MPI_Bcast root.dx c.dx,
        dy := MPI_Bcast root.dy c.dy,
        mesh_folder := MPI_Bcast root.mesh_folder c.mesh_folder,
        dt := MPI_Bcast root.dt c.dt,
        timesteps := MPI_Bcast root.timesteps c.timesteps,
        mu := MPI_Bcast root.mu c.mu,
        n_splits := MPI_Bcast root.n_splits c.n_splits })

/-- The four entries of `local_vals`: `{ dx, dy, dt, mu }`. -/
def local_vals : List (Config → Double) :=
  [fun c => c.dx, fun c => c.dy, fun c => c.dt, fun c => c.mu]

/-- `float_consistent`: false as soon as one of the four entries has
`fabs(global_max[i] - global_min[i]) > 1e-12`. -/
def float_consistent (cfgs : List Config) : Bool :=
  local_vals.all (fun f =>
    !decide (|MPI_Allreduce_MAX (cfgs.map f) - MPI_Allreduce_MIN (cfgs.map f)| > 1 / 10 ^ 12))

/-- `int_consistent = (global_int_max[0] == global_int_min[0]) &&
(global_int_max[1] == global_int_min[1])` over `{ timesteps, n_splits }`. -/
def int_consistent (cfgs : List Config) : Bool :=
  (MPI_Allreduce_MAX (cfgs.map (fun c => c.timesteps))
      == MPI_Allreduce_MIN (cfgs.map (fun c => c.timesteps)))
  && (MPI_Allreduce_MAX (cfgs.map (fun c => c.n_splits))
      == MPI_Allreduce_MIN (cfgs.map (fun c => c.n_splits)))

/-- The loop over the gathered strings on one rank: `folder_match` starts at 1
and is set to 0 at the first string with `strcmp(local_str, ...) != 0`. -/
def folder_match (local_str : String) : List String → Int
  | [] => 1
  | s :: rest => if s ≠ local_str then 0 else folder_match local_str rest

/-- `global_folder_match`: the `MPI_MIN` all-reduce of every rank's
`folder_match`. -/
def global_folder_match (cfgs : List Config) : Int :=
  MPI_Allreduce_MIN (cfgs.map (fun c =>
    folder_match c.mesh_folder (MPI_Allgather (cfgs.map (fun k => k.mesh_folder)))))

/-- The test on rank 0 that leads to `MPI_Abort(MPI_COMM_WORLD, 1)`:
`!float_consistent || !int_consistent || global_folder_match == 0`,
on the values the ranks present to the check. -/
def consistencyCheckAborts (cfgs : List Config) : Bool :=
  !float_consistent cfgs || !int_consistent cfgs || global_folder_match cfgs == 0


/-! ## The two `main` functions -/

/-- The value an `int` holds after an operation whose exact result is `x`:
`x` itself inside the 32-bit range, and the two's-complement wrap-around
outside it (signed overflow is undefined in C++; the wrap is what the usual
targets do). -/
def wrapInt32 (x : Int) : Int :=
  (x + 2147483648) % 4294967296 - 2147483648

/-- The loop `for (int i = 0; i <= timesteps; ++i) { ... }` over the driver
state; the first numeric argument is fuel, the second the counter `i`, an
`int` that `++i` increments with wrap-around. With `timesteps = INT_MAX` the
guard holds for every `int`, so only the fuel ends the loop. -/
def timeLoop (timesteps : Int) (body : Int → Driver → Driver) :
    Nat → Int → Driver → Driver
  | 0, _, d => d
  | fuel + 1, i, d =>
    if i ≤ timesteps then timeLoop timesteps body fuel (wrapInt32 (i + 1)) (body i d)
    else d

/-- The body of the time-stepping loop of `solver_parallel.cpp` for counter
value `i`; `res n r` are the residuals of this time step. -/
def steadyTimeStep (P : Nat) (mu dt : Double) (res : Int → Nat → Nat → Residuals)
    (i : Int) (d : Driver) : Driver :=
  let inter := wrapInt32 (d.inter + 1)
  let max_outer_iterations := 100
  let alpha_uv := computeMomentumRelaxationFactor inter
  let iters := outerLoop max_outer_iterations P
    (steadyOuterBody mu dt alpha_uv d.alpha_p) (res i)
  { alpha_p := d.alpha_p
    alpha_uv := alpha_uv
    inter := inter
    log := d.log ++ [Call.beginTimeStep i, Call.MPI_Barrier]
      ++ iters.flatMap (fun it => it.2)
      ++ [Call.saveMeshData, Call.assign .u0 .u_star, Call.assign .v0 .v_star] }

/-- The body of the time-stepping loop of `solver_simple_unsteady.cpp`. -/
def unsteadyTimeStep (P : Nat) (mu dt : Double) (res : Int → Nat → Nat → Residuals)
    (i : Int) (d : Driver) : Driver :=
  let inter := wrapInt32 (d.inter + 1)
  let max_outer_iterations := 30
  let iters := outerLoop max_outer_iterations P
    (unsteadyOuterBody mu dt d.alpha_uv d.alpha_p) (res i)
  { alpha_p := d.alpha_p
    alpha_uv := d.alpha_uv
    inter := inter
    log := d.log ++ [Call.beginTimeStep i, Call.MPI_Barrier]
      ++ iters.flatMap (fun it => it.2)
      ++ (if i % 2 = 0 then [Call.saveMeshData] else [])
      ++ [Call.assign .u0 .u_star, Call.assign .v0 .v_star] }

/-- `main` of `solver_parallel.cpp` from `MPI_Init` on, for a run on
`num_procs` processes that all parsed the parameters `cfg`; `res i n r` are
the residuals the solver calls of rank `r` return in outer iteration `n` of
time step `i`. The result is the exit and the final driver state; on the
early return the loop locals are not yet declared and are given as 0. The
time-stepping loop gets fuel for `timesteps + 1` passes, after which its
guard ends it for every `timesteps` below `INT_MAX`. -/
def main_steady (cfg : Config) (num_procs : Nat) (res : Int → Nat → Nat → Residuals) :
    Exit × Driver :=
  let log0 := [Call.MPI_Init, Call.MPI_Barrier]
  if (num_procs : Int) ≠ cfg.n_splits then
    (Exit.returned 1, { alpha_p := 0, alpha_uv := 0, inter := 0,
                        log := log0 ++ [Call.MPI_Finalize] })
  else
    let d1 : Driver :=
      { alpha_p := 1 / 10, alpha_uv := 1 / 2, inter := 0,
        log := log0 ++ zeroFieldsCalls ++ [Call.loadMeshDataFromSteady] }
    let d2 := timeLoop cfg.timesteps (steadyTimeStep num_procs cfg.mu cfg.dt res)
      (cfg.timesteps + 1).toNat 0 d1
    (Exit.returned 0, { d2 with log := d2.log ++ [Call.saveMeshData, Call.MPI_Finalize] })

/-- `main` of `solver_simple_unsteady.cpp` from the consistency check on, as
run by a rank that holds `cfg` when the ranks present the values `presented`
(in rank order) to the check; `MPI_Abort` on rank 0 ends the run of every
rank. On the two early exits the loop locals are not yet declared and are
given as 0. The time-stepping loop gets fuel for `timesteps + 1` passes,
after which its guard ends it for every `timesteps` below `INT_MAX`. -/
def unsteadyFromCheck (cfg : Config) (presented : List Config)
    (res : Int → Nat → Nat → Residuals) : Exit × Driver :=
  let num_procs := presented.length
  let log0 := [Call.MPI_Init]
  if consistencyCheckAborts presented then
    (Exit.aborted 1, { alpha_p := 0, alpha_uv := 0, inter := 0,
                       log := log0 ++ [Call.MPI_Abort 1] })
  else if (num_procs : Int) ≠ cfg.n_splits then
    (Exit.returned 1, { alpha_p := 0, alpha_uv := 0, inter := 0,
                        log := log0 ++ [Call.MPI_Finalize] })
  else
    let d1 : Driver :=
      { alpha_p := 1 / 2, alpha_uv := 7 / 10, inter := 0,
        log := log0 ++ zeroFieldsCalls ++ [Call.loadMeshDataFromSteady] }
    let d2 := timeLoop cfg.timesteps (unsteadyTimeStep num_procs cfg.mu cfg.dt res)
      (cfg.timesteps + 1).toNat 0 d1
    (Exit.returned 0,
     { d2 with log := d2.log ++ [Call.saveMeshData, Call.saveMeshData, Call.MPI_Finalize] })

/-- `main` of `solver_simple_unsteady.cpp` from `MPI_Init` on, for a run on
the ranks `0, 1, ...` that parsed `root :: others` (rank 0 first): the
broadcasts, then the rest of `main` on the broadcast values. -/
def main_unsteady (root : Config) (others : List Config)
    (res : Int → Nat → Nat → Residuals) : Exit × Driver :=
  let synced := broadcastConfig (root :: others)
  unsteadyFromCheck (synced.headD root) synced res

/-! ## Matrices and the loading of the initial fields -/

/-- An `Eigen::MatrixXd`: its two dimensions (Eigen's signed `Index`) and its
coefficients in column-major storage order. -/
structure MatrixXd where
  rows : Int
  cols : Int
  data : List Double
deriving DecidableEq, Repr

/-- The coefficient `m(i, j)`: entry `i + j * rows` of the storage. -/
def MatrixXd.coeff (m : MatrixXd) (i j : Int) : Double :=
  m.data.getD (i + j * m.rows).toNat 0

/-- The shape `(rows, cols)` of a matrix. -/
def MatrixXd.shape (m : MatrixXd) : Int × Int := (m.rows, m.cols)

/-- `m.setZero()`: the same shape, every coefficient zero. -/
def MatrixXd.setZero (m : MatrixXd) : MatrixXd :=
  { rows := m.rows, cols := m.cols, data := List.replicate (m.rows * m.cols).toNat 0 }

/-- `Eigen::Map<Eigen::MatrixXd>(values.data(), rows, cols)`: the buffer read
as a column-major matrix of the given shape. -/
def Map (values : List Double) (rows cols : Int) : MatrixXd :=
  { rows := rows, cols := cols, data := values }

/-- `m.transpose()`, evaluated into a fresh column-major matrix. -/
def MatrixXd.transpose (m : MatrixXd) : MatrixXd :=
  { rows := m.cols
    cols := m.rows
    data := (List.range m.rows.toNat).flatMap (fun (j : Nat) =>
      (List.range m.cols.toNat).map (fun (i : Nat) => m.coeff (j : Int) (i : Int))) }

/-- What one formatted extraction `iss >> val` meets on a line: a number,
which is read, or something else, on which the extraction fails. -/
inductive Tok
  | num (val : Double)
  | bad
deriving DecidableEq, Repr

/-- A line of a file, as delivered by `std::getline`: its successive tokens. -/
abbrev Line := List Tok

/-- The files: a name is either absent (`std::ifstream` does not open) or
maps to the lines that successive calls of `std::getline` deliver. -/
abbrev FileSystem := String → Option (List Line)

/-- The loop `while (iss >> val) row_values.push_back(val);` on one line. -/
def readRow : Line → List Double
  | Tok.num val :: rest => val :: readRow rest
  | _ => []

/-- The loop `while (std::getline(file, line)) { ... }` of
`loadMatrixFromFile` over the remaining lines, with the locals `cols`, `rows`
and `values`; `none` is the `return false` on a row of another length. -/
def loadLoop : List Line → Int → Int → List Double → Option (Int × Int × List Double)
  | [], cols, rows, values => some (cols, rows, values)
  | line :: rest, cols, rows, values =>
    let row_values := readRow line
    if cols = -1 then
      loadLoop rest (row_values.length : Int) (rows + 1) (values ++ row_values)
    else if (row_values.length : Int) ≠ cols then none
    else loadLoop rest cols (rows + 1) (values ++ row_values)

/-- `loadMatrixFromFile(filename, mat)`: the returned `bool` and the value of
`mat` after the call. (Eigen's size assertions are taken as compiled out.) -/
def loadMatrixFromFile (fs : FileSystem) (filename : String) (mat : MatrixXd) :
    Bool × MatrixXd :=
  match fs filename with
  | none => (false, mat)
  | some lines =>
    match loadLoop lines (-1) 0 [] with
    | none => (false, mat)
    | some (cols, rows, values) => (true, (Map values cols rows).transpose)

/-- The field arrays of `Mesh` (`DNS.h`) and the grid size. -/
structure Mesh where
  u : MatrixXd
  u0 : MatrixXd
  u_star : MatrixXd
  v : MatrixXd
  v0 : MatrixXd
  v_star : MatrixXd
  p : MatrixXd
  p_star : MatrixXd
  p_prime : MatrixXd
  u_face : MatrixXd
  v_face : MatrixXd
  nx : Int
  ny : Int
deriving DecidableEq, Repr

/-- The statements `mesh.u0.setZero(); ... mesh.p_star.setZero();` of `main`. -/
def zeroFields (mesh : Mesh) : Mesh :=
  { mesh with
    u0 := mesh.u0.setZero, v0 := mesh.v0.setZero, u_star := mesh.u_star.setZero,
    v_star := mesh.v_star.setZero, u_face := mesh.u_face.setZero,
    v_face := mesh.v_face.setZero, u := mesh.u.setZero, v := mesh.v.setZero,
    p := mesh.p.setZero, p_prime := mesh.p_prime.setZero, p_star := mesh.p_star.setZero }

/-- The name `steady/<stem>_<rank>.dat` built with `std::to_string(rank)`. -/
def steadyFile (stem : String) (rank : Int) : String :=
  "steady" ++ "/" ++ stem ++ "_" ++ toString rank ++ ".dat"

/-- `loadMeshDataFromSteady(mesh, rank)`: nine loads in source order, each
into its own field, the returned `bool` used only for a message. -/
def loadMeshDataFromSteady (fs : FileSystem) (mesh : Mesh) (rank : Int) : Mesh :=
  let u_filename := steadyFile "u" rank
  let v_filename := steadyFile "v" rank
  let p_filename := steadyFile "p" rank
  let uf_filename := steadyFile "uf" rank
  let vf_filename := steadyFile "vf" rank
  let mesh := { mesh with u0 := (loadMatrixFromFile fs u_filename mesh.u0).2 }
  let mesh := { mesh with u := (loadMatrixFromFile fs u_filename mesh.u).2 }
  let mesh := { mesh with u_star := (loadMatrixFromFile fs u_filename mesh.u_star).2 }
  let mesh := { mesh with v0 := (loadMatrixFromFile fs v_filename mesh.v0).2 }
  let mesh := { mesh with v := (loadMatrixFromFile fs v_filename mesh.v).2 }
  let mesh := { mesh with v_star := (loadMatrixFromFile fs v_filename mesh.v_star).2 }
  let mesh := { mesh with p := (loadMatrixFromFile fs p_filename mesh.p).2 }
  let mesh := { mesh with u_face := (loadMatrixFromFile fs uf_filename mesh.u_face).2 }
  let mesh := { mesh with v_face := (loadMatrixFromFile fs vf_filename mesh.v_face).2 }
  mesh

/-- The mesh with which `main` enters the time-stepping loop: the sub-mesh of
the rank, zeroed, then loaded from `steady/`. -/
def initialMesh (fs : FileSystem) (mesh : Mesh) (rank : Int) : Mesh :=
  loadMeshDataFromSteady fs (zeroFields mesh) rank

/-! ## Reference definitions used in the statements -/

/-- The baselines a rank holds once the first iteration of a time step has
recorded the residuals `first`. -/
def baselineOf (first : Residuals) : InitNorms :=
  ⟨first.l2_norm_x, first.l2_norm_y, first.l2_norm_p⟩

/-- The record of a rank whose first-iteration residuals were `first` and
whose current residuals are `cur`. -/
def recordOf (first cur : Residuals) : RankRecord :=
  (convergenceCheck 0 (baselineOf first) cur).2

/-- Residuals of size `1e-201` in all three equations. -/
def tinyResiduals : Residuals := ⟨1 / 10 ^ 201, 1 / 10 ^ 201, 1 / 10 ^ 201⟩

/-- A residual history that starts at 1 and is 0 from the second outer
iteration on, on every rank. -/
def dropToZero : Nat → Nat → Residuals :=
  fun n _ => if n = 1 then ⟨1, 1, 1⟩ else ⟨0, 0, 0⟩

/-- Parameters of a small run: two time steps on two processes. -/
def sampleConfig : Config :=
  { mesh_folder := "mesh", dt := 1 / 10, timesteps := 1, mu := 1 / 100, n_splits := 2,
    dx := 1 / 50, dy := 1 / 50 }

/-- The sample parameters with a time step larger by `1e-13`. -/
def nearbyConfig : Config :=
  { sampleConfig with dt := 1 / 10 + 1 / 10 ^ 13 }

/-- The sample parameters with another number of time steps. -/
def otherStepsConfig : Config :=
  { sampleConfig with timesteps := 5 }

/-- The numbers of a file whose rows are `nums`, in reading order. -/
def concatRows : List (List Double) → List Double
  | [] => []
  | row :: rest => row ++ concatRows rest

/-- The lines of a file that holds exactly the rows `nums`, every token a
number. -/
def numericLines (nums : List (List Double)) : List Line :=
  nums.map (fun row => row.map Tok.num)

/-- A 2-by-3 table of numbers. -/
def sampleRows : List (List Double) := [[1, 2, 3], [4, 5, 6]]

/-- A file system in which every name opens the file of `sampleRows`. -/
def sampleFiles : FileSystem := fun _ => some (numericLines sampleRows)

/-- The eleven field arrays of a mesh, in the order `u, u0, u_star, v, v0,
v_star, p, p_star, p_prime, u_face, v_face`. -/
def Mesh.fields (m : Mesh) : List MatrixXd :=
  [m.u, m.u0, m.u_star, m.v, m.v0, m.v_star, m.p, m.p_star, m.p_prime, m.u_face, m.v_face]

/-- A mesh whose eleven arrays are all the zero matrix of the given shape. -/
def uniformMesh (ny nx : Nat) : Mesh :=
  let z : MatrixXd := Map (List.replicate (ny * nx) 0) ny nx
  { u := z, u0 := z, u_star := z, v := z, v0 := z, v_star := z, p := z, p_star := z,
    p_prime := z, u_face := z, v_face := z, nx := nx, ny := ny }

/-- The value the `MPI_MIN` all-reduce of outer iteration `n` hands to every
rank of a time step in which rank `q` gets the residuals `res m q` in
iteration `m`: the minimum over the `P` ranks of the flag each computes from
its residuals of iteration 1 and of iteration `n`. -/
def reducedFlag (P : Nat) (res : Nat → Nat → Residuals) (n : Nat) : Int :=
  MPI_Allreduce_MIN
    ((List.range P).map (fun q => (recordOf (res 1 q) (res n q)).local_converged))

/-- The counter values `i` with which a log records an entry into the body of
the time-stepping loop, in order. -/
def timeStepsEntered (log : List Call) : List Int :=
  log.filterMap (fun c => match c with
    | Call.beginTimeStep i => some i
    | _ => none)

/-- The number of times a log records the pair of statements that ends the
body of the time-stepping loop, counted by `mesh.u0 = mesh.u_star`. -/
def timeStepsCompleted (log : List Call) : Nat :=
  log.count (Call.assign FieldId.u0 FieldId.u_star)

/-- A file system in which every name opens a three-line file: `1 x 2`, then
`3`, then a blank line (`x` stands for a token that is not a number). -/
def raggedFiles : FileSystem :=
  fun _ => some [[Tok.num 1, Tok.bad, Tok.num 2], [Tok.num 3], []]

/-- The driver state with which `main` of `solver_parallel.cpp` enters the
time-stepping loop. -/
def steadyLoopStart : Driver :=
  { alpha_p := 1 / 10, alpha_uv := 1 / 2, inter := 0,
    log := [Call.MPI_Init, Call.MPI_Barrier] ++ zeroFieldsCalls
      ++ [Call.loadMeshDataFromSteady] }

/-- The driver state with which `main` of `solver_simple_unsteady.cpp` enters
the time-stepping loop. -/
def unsteadyLoopStart : Driver :=
  { alpha_p := 1 / 2, alpha_uv := 7 / 10, inter := 0,
    log := [Call.MPI_Init] ++ zeroFieldsCalls ++ [Call.loadMeshDataFromSteady] }

/-! ## Properties of the reductions -/

theorem foldl_min_le_init {α : Type} [LinearOrder α] (l : List α) (a : α) :
    l.foldl min a ≤ a := by
  induction l generalizing a with
  | nil => simp
  | cons b t ih => exact le_trans (ih (min a b)) (min_le_left a b)

theorem foldl_min_le_of_mem {α : Type} [LinearOrder α] (l : List α) (a x : α)
    (hx : x ∈ l) : l.foldl min a ≤ x := by
  induction l generalizing a with
  | nil => simp at hx
  | cons b t ih =>
    rcases List.mem_cons.mp hx with h | h
    · subst h
      exact le_trans (foldl_min_le_init t (min a x)) (min_le_right a x)
    · exact ih (min a b) h

theorem foldl_min_mem {α : Type} [LinearOrder α] (l : List α) (a : α) :
    l.foldl min a = a ∨ l.foldl min a ∈ l := by
  induction l generalizing a with
  | nil => simp
  | cons b t ih =>
    rcases ih (min a b) with h | h
    · rcases min_choice a b with h2 | h2
      · left; rw [List.foldl_cons, h, h2]
      · right; rw [List.foldl_cons, h, h2]; exact List.mem_cons_self _ _
    · right; exact List.mem_cons_of_mem _ h

theorem allreduceMin_le {α : Type} [LinearOrder α] [Inhabited α] (l : List α) (x : α)
    (hx : x ∈ l) : MPI_Allreduce_MIN l ≤ x := by
  cases l with
  | nil => simp at hx
  | cons a t =>
    rcases List.mem_cons.mp hx with h | h
    · subst h; exact foldl_min_le_init t x
    · exact foldl_min_le_of_mem t a x h

theorem allreduceMin_mem {α : Type} [LinearOrder α] [Inhabited α] (l : List α)
    (hl : l ≠ []) : MPI_Allreduce_MIN l ∈ l := by
  cases l with
  | nil => exact absurd rfl hl
  | cons a t =>
    rcases foldl_min_mem t a with h | h
    · simp [MPI_Allreduce_MIN, h]
    · exact List.mem_cons_of_mem _ h

theorem foldl_max_ge_init {α : Type} [LinearOrder α] (l : List α) (a : α) :
    a ≤ l.foldl max a := by
  induction l generalizing a with
  | nil => simp
  | cons b t ih => exact le_trans (le_max_left a b) (ih (max a b))

theorem foldl_max_ge_of_mem {α : Type} [LinearOrder α] (l : List α) (a x : α)
    (hx : x ∈ l) : x ≤ l.foldl max a := by
  induction l generalizing a with
  | nil => simp at hx
  | cons b t ih =>
    rcases List.mem_cons.mp hx with h | h
    · subst h
      exact le_trans (le_max_right a x) (foldl_max_ge_init t (max a x))
    · exact ih (max a b) h

theorem foldl_max_mem {α : Type} [LinearOrder α] (l : List α) (a : α) :
    l.foldl max a = a ∨ l.foldl max a ∈ l := by
  induction l generalizing a with
  | nil => simp
  | cons b t ih =>
    rcases ih (max a b) with h | h
    · rcases max_choice a b with h2 | h2
      · left; rw [List.foldl_cons, h, h2]
      · right; rw [List.foldl_cons, h, h2]; exact List.mem_cons_self _ _
    · right; exact List.mem_cons_of_mem _ h

theorem allreduceMax_ge {α : Type} [LinearOrder α] [Inhabited α] (l : List α) (x : α)
    (hx : x ∈ l) : x ≤ MPI_Allreduce_MAX l := by
  cases l with
  | nil => simp at hx
  | cons a t =>
    rcases List.mem_cons.mp hx with h | h
    · subst h; exact foldl_max_ge_init t x
    · exact foldl_max_ge_of_mem t a x h

theorem allreduceMax_mem {α : Type} [LinearOrder α] [Inhabited α] (l : List α)
    (hl : l ≠ []) : MPI_Allreduce_MAX l ∈ l := by
  cases l with
  | nil => exact absurd rfl hl
  | cons a t =>
    rcases foldl_max_mem t a with h | h
    · simp [MPI_Allreduce_MAX, h]
    · exact List.mem_cons_of_mem _ h

/-- On flags that are each 0 or 1, the `MPI_MIN` reduction is non-zero exactly
when every flag is 1. -/
theorem allreduceMin_flags_ne_zero (flags : List Int) (hne : flags ≠ [])
    (h01 : ∀ f ∈ flags, f = 0 ∨ f = 1) :
    MPI_Allreduce_MIN flags ≠ 0 ↔ ∀ f ∈ flags, f = 1 := by
  constructor
  · intro h f hf
    rcases h01 f hf with h0 | h1
    · exfalso
      have hle := allreduceMin_le flags f hf
      have hm := allreduceMin_mem flags hne
      rcases h01 _ hm with hm0 | hm1
      · exact h hm0
      · rw [hm1, h0] at hle; omega
    · exact h1
  · intro h
    have hm := allreduceMin_mem flags hne
    rw [h _ hm]; decide

/-! ## The convergence test and the outer loop -/

theorem local_converged_eq_one (x y p : Double) :
    local_converged x y p = 1 ↔ (x < 1 / 10 ∧ y < 1 / 10 ∧ p < 1 / 1000) := by
  unfold local_converged
  by_cases hx : x < 1 / 10 <;> by_cases hy : y < 1 / 10 <;> by_cases hp : p < 1 / 1000 <;>
    simp [hx, hy, hp]

theorem local_converged_eq_zero (x y p : Double) :
    local_converged x y p = 0 ↔ ¬ (x < 1 / 10 ∧ y < 1 / 10 ∧ p < 1 / 1000) := by
  unfold local_converged
  by_cases hx : x < 1 / 10 <;> by_cases hy : y < 1 / 10 <;> by_cases hp : p < 1 / 1000 <;>
    simp [hx, hy, hp]

theorem local_converged_zero_or_one (x y p : Double) :
    local_converged x y p = 0 ∨ local_converged x y p = 1 := by
  unfold local_converged
  split
  · right; rfl
  · left; rfl

theorem convergenceCheck_first (init : InitNorms) (r : Residuals) :
    convergenceCheck 1 init r = (baselineOf r, recordOf r r) := by
  simp [convergenceCheck, recordOf, recordInitial, baselineOf]

theorem convergenceCheck_later (n : Nat) (hn : n ≠ 1) (first r : Residuals) :
    convergenceCheck n (baselineOf first) r = (baselineOf first, recordOf first r) := by
  simp [convergenceCheck, recordOf, recordInitial, baselineOf, hn]

theorem outerIteration_flags_ne_nil (P n : Nat) (hP : 1 ≤ P) (inits : Nat → InitNorms)
    (res : Nat → Residuals) :
    (outerIteration P n inits res).2.ranks.map (fun k => k.local_converged) ≠ [] := by
  intro h
  have hlen := congrArg List.length h
  simp [outerIteration] at hlen
  omega

theorem outerIteration_flags_zero_or_one (P n : Nat) (inits : Nat → InitNorms)
    (res : Nat → Residuals) :
    ∀ f ∈ (outerIteration P n inits res).2.ranks.map (fun k => k.local_converged),
      f = 0 ∨ f = 1 := by
  intro f hf
  simp only [outerIteration, List.map_map, List.mem_map, List.mem_range,
    Function.comp] at hf
  obtain ⟨r, _, rfl⟩ := hf
  exact local_converged_zero_or_one _ _ _

/-- Every executed iteration of the outer loop, counted from `n`, holds on
each rank the record computed from the first residuals of the time step. -/
theorem outerLoopFrom_record (max_outer_iterations P : Nat) (body : List Call)
    (res : Nat → Nat → Residuals) :
    ∀ (fuel n : Nat) (inits : Nat → InitNorms) (k : Nat),
      (n = 1 ∨ (2 ≤ n ∧ ∀ r, inits r = baselineOf (res 1 r))) →
      k < (outerLoopFrom max_outer_iterations P body res fuel n inits).length →
      ∃ it, (outerLoopFrom max_outer_iterations P body res fuel n inits)[k]? = some it
        ∧ it.1.n = n + k
        ∧ it.1.ranks = (List.range P).map (fun r => recordOf (res 1 r) (res (n + k) r)) := by
  intro fuel
  induction fuel with
  | zero => intro n inits k _ hk; simp [outerLoopFrom] at hk
  | succ fuel ih =>
    intro n inits k hinv hk
    have hranks : (outerIteration P n inits (res n)).2.ranks
        = (List.range P).map (fun r => recordOf (res 1 r) (res n r)) := by
      simp only [outerIteration]
      apply List.map_congr_left
      intro r _
      rcases hinv with h1 | ⟨hn, hb⟩
      · subst h1; rw [convergenceCheck_first]
      · rw [hb r, convergenceCheck_later n (by omega)]
    have hnext : ∀ r, (outerIteration P n inits (res n)).1 r = baselineOf (res 1 r) := by
      intro r
      simp only [outerIteration]
      rcases hinv with h1 | ⟨hn, hb⟩
      · subst h1; rw [convergenceCheck_first]
      · rw [hb r, convergenceCheck_later n (by omega)]
    unfold outerLoopFrom at hk ⊢
    by_cases hle : n ≤ max_outer_iterations
    · simp only [hle, if_true] at hk ⊢
      by_cases hb : loopBreaks
          ((outerIteration P n inits (res n)).2.ranks.map (fun k => k.local_converged)) = true
      · simp only [hb, if_true] at hk ⊢
        simp only [List.length_singleton, Nat.lt_one_iff] at hk
        subst hk
        exact ⟨((outerIteration P n inits (res n)).2, body), by simp, rfl, hranks⟩
      · have hb2 : loopBreaks
            ((outerIteration P n inits (res n)).2.ranks.map (fun k => k.local_converged))
            = false := by simpa using hb
        simp only [hb2, Bool.false_eq_true, if_false] at hk ⊢
        cases k with
        | zero =>
          exact ⟨((outerIteration P n inits (res n)).2, body ++ [Call.MPI_Barrier]),
            by simp, rfl, hranks⟩
        | succ k =>
          have hk2 : k < (outerLoopFrom max_outer_iterations P body res fuel (n + 1)
              (outerIteration P n inits (res n)).1).length := by
            simpa using hk
          obtain ⟨it, h1, h2, h3⟩ := ih (n + 1) _ k (Or.inr ⟨by omega, hnext⟩) hk2
          refine ⟨it, ?_, ?_, ?_⟩
          · simpa using h1
          · rw [h2]; omega
          · rw [h3]
            apply List.map_congr_left
            intro r _
            have : n + 1 + k = n + (k + 1) := by omega
            rw [this]
    · simp [hle] at hk

theorem outerLoopFrom_step (max_outer_iterations P : Nat) (body : List Call)
    (res : Nat → Nat → Residuals) (fuel n : Nat) (inits : Nat → InitNorms)
    (hf : 0 < fuel) (hn : n ≤ max_outer_iterations) :
    outerLoopFrom max_outer_iterations P body res fuel n inits
      = if loopBreaks ((outerIteration P n inits (res n)).2.ranks.map
            (fun k => k.local_converged)) = true then
          [((outerIteration P n inits (res n)).2, body)]
        else
          ((outerIteration P n inits (res n)).2, body ++ [Call.MPI_Barrier])
            :: outerLoopFrom max_outer_iterations P body res (fuel - 1) (n + 1)
                (outerIteration P n inits (res n)).1 := by
  cases fuel with
  | zero => omega
  | succ fuel =>
    rw [outerLoopFrom]
    simp [hn]

theorem outerLoop_length_pos (max_outer_iterations P : Nat) (body : List Call)
    (res : Nat → Nat → Residuals) (hmax : 1 ≤ max_outer_iterations) :
    0 < (outerLoop max_outer_iterations P body res).length := by
  unfold outerLoop
  rw [outerLoopFrom_step _ _ _ _ _ _ _ (by omega) hmax]
  split <;> simp

theorem outerLoop_head (max_outer_iterations P : Nat) (body : List Call)
    (res : Nat → Nat → Residuals) (hmax : 1 ≤ max_outer_iterations) :
    (outerLoop max_outer_iterations P body res).head?.map (fun it => it.1)
      = some (outerIteration P 1 (fun _ => InitNorms.start) (res 1)).2 := by
  unfold outerLoop
  rw [outerLoopFrom_step _ _ _ _ _ _ _ (by omega) hmax]
  split <;> simp

theorem norm_res_tiny : norm_res (1 / 10 ^ 201) (1 / 10 ^ 201) = 0 := by
  unfold norm_res
  rw [if_neg]
  norm_num

/-- C1: in both drivers the local convergence flag computed from a triple of
normalized residuals is 1 exactly when `norm_res_x < 1e-1`, `norm_res_y <
1e-1` and `norm_res_p < 1e-3`, and 0 exactly otherwise; this holds for every
triple and in particular for the triple of every outer iteration. -/
theorem local_converged_iff_thresholds (x y p : Double) (n : Nat) (init : InitNorms)
    (r : Residuals) :
    ((local_converged x y p = 1 ↔ (x < 1 / 10 ∧ y < 1 / 10 ∧ p < 1 / 1000))
      ∧ (local_converged x y p = 0 ↔ ¬ (x < 1 / 10 ∧ y < 1 / 10 ∧ p < 1 / 1000)))
    ∧ (((convergenceCheck n init r).2.local_converged = 1 ↔
          ((convergenceCheck n init r).2.norm_res_x < 1 / 10
            ∧ (convergenceCheck n init r).2.norm_res_y < 1 / 10
            ∧ (convergenceCheck n init r).2.norm_res_p < 1 / 1000))
      ∧ ((convergenceCheck n init r).2.local_converged = 0 ↔
          ¬ ((convergenceCheck n init r).2.norm_res_x < 1 / 10
            ∧ (convergenceCheck n init r).2.norm_res_y < 1 / 10
            ∧ (convergenceCheck n init r).2.norm_res_p < 1 / 1000))) :=
  ⟨⟨local_converged_eq_one x y p, local_converged_eq_zero x y p⟩,
   ⟨local_converged_eq_one _ _ _, local_converged_eq_zero _ _ _⟩⟩

/-- C2: for `P ≥ 1` ranks whose local flags are each 0 or 1, the `MPI_MIN`
all-reduce of the flags is non-zero exactly when every flag is 1, the `break`
test of the outer loop is true exactly then, and an outer iteration whose
ranks computed these flags ends the loop in that case and goes on to
iteration `n + 1` otherwise. -/
theorem global_convergence_is_and (P : Nat) (flags : List Int) (hP : 1 ≤ P)
    (hlen : flags.length = P) (h01 : ∀ f ∈ flags, f = 0 ∨ f = 1) :
    (MPI_Allreduce_MIN flags ≠ 0 ↔ ∀ f ∈ flags, f = 1)
    ∧ (loopBreaks flags = true ↔ ∀ f ∈ flags, f = 1)
    ∧ ∀ (max_outer_iterations : Nat) (body : List Call) (res : Nat → Nat → Residuals)
        (fuel n : Nat) (inits : Nat → InitNorms),
        n ≤ max_outer_iterations →
        (outerIteration P n inits (res n)).2.ranks.map (fun k => k.local_converged) = flags →
        ((∀ f ∈ flags, f = 1) →
          outerLoopFrom max_outer_iterations P body res (fuel + 1) n inits
            = [((outerIteration P n inits (res n)).2, body)])
        ∧ (¬ (∀ f ∈ flags, f = 1) →
          outerLoopFrom max_outer_iterations P body res (fuel + 1) n inits
            = ((outerIteration P n inits (res n)).2, body ++ [Call.MPI_Barrier])
              :: outerLoopFrom max_outer_iterations P body res fuel (n + 1)
                  (outerIteration P n inits (res n)).1) := by
  have hne : flags ≠ [] := by
    intro h; rw [h] at hlen; simp at hlen; omega
  have hmin := allreduceMin_flags_ne_zero flags hne h01
  have hbrk : loopBreaks flags = true ↔ ∀ f ∈ flags, f = 1 := by
    rw [← hmin]; simp [loopBreaks]
  refine ⟨hmin, hbrk, ?_⟩
  intro max_outer_iterations body res fuel n inits hn hflags
  rw [outerLoopFrom_step _ _ _ _ _ _ _ (Nat.succ_pos fuel) hn, hflags]
  constructor
  · intro hall
    rw [if_pos (hbrk.mpr hall)]
  · intro hnot
    rw [if_neg (fun h => hnot (hbrk.mp h))]
    rfl

/-- Witness of C2: two ranks that both report 1. -/
theorem global_convergence_is_and_witness :
    (MPI_Allreduce_MIN [(1 : Int), 1] ≠ 0 ↔ ∀ f ∈ [(1 : Int), 1], f = 1)
    ∧ (loopBreaks [1, 1] = true ↔ ∀ f ∈ [(1 : Int), 1], f = 1) :=
  ⟨(global_convergence_is_and 2 [1, 1] (by decide) rfl (by decide)).1,
   (global_convergence_is_and 2 [1, 1] (by decide) rfl (by decide)).2.1⟩

theorem recordOf_norm_res_x (first cur : Residuals) :
    (recordOf first cur).norm_res_x
      = if first.l2_norm_x > 1 / 10 ^ 200 then cur.l2_norm_x / first.l2_norm_x else 0 := by
  simp [recordOf, convergenceCheck, recordInitial, baselineOf, norm_res]

theorem recordOf_norm_res_y (first cur : Residuals) :
    (recordOf first cur).norm_res_y
      = if first.l2_norm_y > 1 / 10 ^ 200 then cur.l2_norm_y / first.l2_norm_y else 0 := by
  simp [recordOf, convergenceCheck, recordInitial, baselineOf, norm_res]

theorem recordOf_norm_res_p (first cur : Residuals) :
    (recordOf first cur).norm_res_p
      = if first.l2_norm_p > 1 / 10 ^ 200 then cur.l2_norm_p / first.l2_norm_p else 0 := by
  simp [recordOf, convergenceCheck, recordInitial, baselineOf, norm_res]

/-- Counterexample to C3 as stated: with residuals of `1e-201` on the single
rank, the first outer iteration of the steady driver's loop records them as
the baseline and reports the normalized residual 0, while the residual
divided by the recorded one is 1. -/
theorem normalized_residual_not_quotient :
    (outerLoop 100 1 (steadyOuterBody 0 0 0 0) (fun _ _ => tinyResiduals)).head?.map
        (fun it => it.1.ranks.map (fun k => (k.norm_res_x, k.norm_res_y, k.norm_res_p)))
      = some [(0, 0, 0)]
    ∧ tinyResiduals.l2_norm_x / tinyResiduals.l2_norm_x = 1
    ∧ tinyResiduals.l2_norm_y / tinyResiduals.l2_norm_y = 1
    ∧ tinyResiduals.l2_norm_p / tinyResiduals.l2_norm_p = 1 := by
  refine ⟨?_, ?_, ?_, ?_⟩
  · have h := outerLoop_head 100 1 (steadyOuterBody 0 0 0 0) (fun _ _ => tinyResiduals)
      (by decide)
    rw [Option.map_eq_some'] at h ⊢
    obtain ⟨it, hit, hrec⟩ := h
    refine ⟨it, hit, ?_⟩
    rw [hrec]
    simp [outerIteration, convergenceCheck, recordInitial, tinyResiduals]
    simpa using norm_res_tiny
  · simp [tinyResiduals]
  · simp [tinyResiduals]
  · simp [tinyResiduals]

/-- C3 (amended): in every time step, the record of the `k + 1`-st executed
outer iteration is that of iteration `n = k + 1`, and on every rank its
normalized residual of each equation is the residual of iteration `n` divided
by the residual recorded in iteration 1 when that recorded residual exceeds
`1e-200`, and is 0 when it does not. -/
theorem normalized_residual_guarded (max_outer_iterations P : Nat) (body : List Call)
    (res : Nat → Nat → Residuals) (k r : Nat)
    (hk : k < (outerLoop max_outer_iterations P body res).length) (hr : r < P) :
    ∃ it rec, (outerLoop max_outer_iterations P body res)[k]? = some it
      ∧ it.1.n = k + 1
      ∧ it.1.ranks[r]? = some rec
      ∧ rec.norm_res_x = (if (res 1 r).l2_norm_x > 1 / 10 ^ 200
          then (res (k + 1) r).l2_norm_x / (res 1 r).l2_norm_x else 0)
      ∧ rec.norm_res_y = (if (res 1 r).l2_norm_y > 1 / 10 ^ 200
          then (res (k + 1) r).l2_norm_y / (res 1 r).l2_norm_y else 0)
      ∧ rec.norm_res_p = (if (res 1 r).l2_norm_p > 1 / 10 ^ 200
          then (res (k + 1) r).l2_norm_p / (res 1 r).l2_norm_p else 0) := by
  obtain ⟨it, h1, h2, h3⟩ := outerLoopFrom_record max_outer_iterations P body res
    max_outer_iterations 1 (fun _ => InitNorms.start) k (Or.inl rfl) hk
  refine ⟨it, recordOf (res 1 r) (res (1 + k) r), h1, by omega, ?_, ?_, ?_, ?_⟩
  · rw [h3]; simp [hr]
  · rw [recordOf_norm_res_x, Nat.add_comm 1 k]
  · rw [recordOf_norm_res_y, Nat.add_comm 1 k]
  · rw [recordOf_norm_res_p, Nat.add_comm 1 k]

/-- Witness of C3 (amended): the first iteration of the unsteady driver's
loop on two ranks, rank 1. -/
theorem normalized_residual_guarded_witness :
    0 < (outerLoop 30 2 (unsteadyOuterBody 0 0 0 0) dropToZero).length ∧ 1 < 2
    ∧ ∃ it rec, (outerLoop 30 2 (unsteadyOuterBody 0 0 0 0) dropToZero)[0]? = some it
      ∧ it.1.n = 0 + 1
      ∧ it.1.ranks[1]? = some rec
      ∧ rec.norm_res_x = (if (dropToZero 1 1).l2_norm_x > 1 / 10 ^ 200
          then (dropToZero (0 + 1) 1).l2_norm_x / (dropToZero 1 1).l2_norm_x else 0)
      ∧ rec.norm_res_y = (if (dropToZero 1 1).l2_norm_y > 1 / 10 ^ 200
          then (dropToZero (0 + 1) 1).l2_norm_y / (dropToZero 1 1).l2_norm_y else 0)
      ∧ rec.norm_res_p = (if (dropToZero 1 1).l2_norm_p > 1 / 10 ^ 200
          then (dropToZero (0 + 1) 1).l2_norm_p / (dropToZero 1 1).l2_norm_p else 0) :=
  ⟨outerLoop_length_pos 30 2 _ _ (by decide), by decide,
   normalized_residual_guarded 30 2 (unsteadyOuterBody 0 0 0 0) dropToZero 0 1
     (outerLoop_length_pos 30 2 _ _ (by decide)) (by decide)⟩

/-! ## Start-up checks -/

theorem broadcastConfig_eq_replicate (root : Config) (others : List Config) :
    broadcastConfig (root :: others) = List.replicate (others.length + 1) root := by
  have h : ∀ l : List Config,
      l.map (fun c : Config =>
        ({ dx := MPI_Bcast root.dx c.dx,
           dy := MPI_Bcast root.dy c.dy,
           mesh_folder := MPI_Bcast root.mesh_folder c.mesh_folder,
           dt := MPI_Bcast root.dt c.dt,
           timesteps := MPI_Bcast root.timesteps c.timesteps,
           mu := MPI_Bcast root.mu c.mu,
           n_splits := MPI_Bcast root.n_splits c.n_splits } : Config))
        = List.replicate l.length root := by
    intro l
    induction l with
    | nil => rfl
    | cons c t ih => rw [List.map_cons, ih]; rfl
  exact h (root :: others)

theorem foldl_min_replicate {α : Type} [LinearOrder α] (n : Nat) (x : α) :
    (List.replicate n x).foldl min x = x := by
  induction n with
  | zero => rfl
  | succ n ih => rw [List.replicate_succ, List.foldl_cons, min_self, ih]

theorem foldl_max_replicate {α : Type} [LinearOrder α] (n : Nat) (x : α) :
    (List.replicate n x).foldl max x = x := by
  induction n with
  | zero => rfl
  | succ n ih => rw [List.replicate_succ, List.foldl_cons, max_self, ih]

theorem allreduceMin_replicate {α : Type} [LinearOrder α] [Inhabited α] (n : Nat) (x : α) :
    MPI_Allreduce_MIN (List.replicate (n + 1) x) = x := by
  rw [List.replicate_succ]
  exact foldl_min_replicate n x

theorem allreduceMax_replicate {α : Type} [LinearOrder α] [Inhabited α] (n : Nat) (x : α) :
    MPI_Allreduce_MAX (List.replicate (n + 1) x) = x := by
  rw [List.replicate_succ]
  exact foldl_max_replicate n x

theorem folder_match_replicate (s : String) (n : Nat) :
    folder_match s (List.replicate n s) = 1 := by
  induction n with
  | zero => rfl
  | succ n ih => rw [List.replicate_succ, folder_match]; simp [ih]

/-- When every rank presents the same values, the consistency check does not
take the abort branch. -/
theorem consistencyCheck_replicate (root : Config) (n : Nat) :
    consistencyCheckAborts (List.replicate (n + 1) root) = false := by
  have hf : float_consistent (List.replicate (n + 1) root) = true := by
    simp only [float_consistent, local_vals, List.map_replicate,
      allreduceMin_replicate, allreduceMax_replicate]
    simp
  have hi : int_consistent (List.replicate (n + 1) root) = true := by
    simp only [int_consistent, List.map_replicate,
      allreduceMin_replicate, allreduceMax_replicate]
    simp
  have hg : global_folder_match (List.replicate (n + 1) root) = 1 := by
    simp only [global_folder_match, MPI_Allgather, List.map_replicate,
      folder_match_replicate, allreduceMin_replicate]
  simp [consistencyCheckAborts, hf, hi, hg]

/-- After the broadcasts of the unsteady driver the consistency check does
not abort. -/
theorem consistencyCheck_after_broadcast (root : Config) (others : List Config) :
    consistencyCheckAborts (broadcastConfig (root :: others)) = false := by
  rw [broadcastConfig_eq_replicate]
  exact consistencyCheck_replicate root others.length

theorem broadcastConfig_head (root : Config) (others : List Config) :
    (broadcastConfig (root :: others)).headD root = root := by
  rw [broadcastConfig_eq_replicate, List.replicate_succ]
  rfl

theorem timeLoop_log_extends (timesteps : Int) (body : Int → Driver → Driver)
    (hbody : ∀ i d, ∃ t, (body i d).log = d.log ++ t) :
    ∀ (fuel : Nat) (i : Int) (d : Driver),
      ∃ t, (timeLoop timesteps body fuel i d).log = d.log ++ t := by
  intro fuel
  induction fuel with
  | zero => intro i d; exact ⟨[], by simp [timeLoop]⟩
  | succ fuel ih =>
    intro i d
    rw [timeLoop]
    split
    · obtain ⟨t1, h1⟩ := hbody i d
      obtain ⟨t2, h2⟩ := ih (wrapInt32 (i + 1)) (body i d)
      exact ⟨t1 ++ t2, by rw [h2, h1, List.append_assoc]⟩
    · exact ⟨[], by simp⟩

theorem steadyTimeStep_log_extends (P : Nat) (mu dt : Double)
    (res : Int → Nat → Nat → Residuals) (i : Int) (d : Driver) :
    ∃ t, (steadyTimeStep P mu dt res i d).log = d.log ++ t := by
  simp only [steadyTimeStep, List.append_assoc]
  exact ⟨_, rfl⟩

theorem unsteadyTimeStep_log_extends (P : Nat) (mu dt : Double)
    (res : Int → Nat → Nat → Residuals) (i : Int) (d : Driver) :
    ∃ t, (unsteadyTimeStep P mu dt res i d).log = d.log ++ t := by
  simp only [unsteadyTimeStep, List.append_assoc]
  exact ⟨_, rfl⟩

theorem main_steady_mismatch (cfg : Config) (num_procs : Nat)
    (res : Int → Nat → Nat → Residuals) (h : (num_procs : Int) ≠ cfg.n_splits) :
    main_steady cfg num_procs res
      = (Exit.returned 1,
         { alpha_p := 0, alpha_uv := 0, inter := 0,
           log := [Call.MPI_Init, Call.MPI_Barrier, Call.MPI_Finalize] }) := by
  simp [main_steady, h]

theorem main_steady_match (cfg : Config) (num_procs : Nat)
    (res : Int → Nat → Nat → Residuals) (h : (num_procs : Int) = cfg.n_splits) :
    (main_steady cfg num_procs res).1 = Exit.returned 0
    ∧ Call.loadMeshDataFromSteady ∈ (main_steady cfg num_procs res).2.log := by
  obtain ⟨t, ht⟩ := timeLoop_log_extends cfg.timesteps
    (steadyTimeStep num_procs cfg.mu cfg.dt res)
    (steadyTimeStep_log_extends num_procs cfg.mu cfg.dt res)
    (cfg.timesteps + 1).toNat 0
    { alpha_p := 1 / 10, alpha_uv := 1 / 2, inter := 0,
      log := [Call.MPI_Init, Call.MPI_Barrier] ++ zeroFieldsCalls
        ++ [Call.loadMeshDataFromSteady] }
  simp only [main_steady, h, ne_eq, not_true_eq_false, if_false]
  refine ⟨trivial, ?_⟩
  rw [ht]
  simp

theorem main_unsteady_mismatch (root : Config) (others : List Config)
    (res : Int → Nat → Nat → Residuals)
    (h : ((others.length + 1 : Nat) : Int) ≠ root.n_splits) :
    main_unsteady root others res
      = (Exit.returned 1,
         { alpha_p := 0, alpha_uv := 0, inter := 0,
           log := [Call.MPI_Init, Call.MPI_Finalize] }) := by
  have hs := consistencyCheck_after_broadcast root others
  have hl : (broadcastConfig (root :: others)).length = others.length + 1 := by
    rw [broadcastConfig_eq_replicate, List.length_replicate]
  simp only [main_unsteady, unsteadyFromCheck, hs, broadcastConfig_head, hl, ne_eq, h,
    not_false_eq_true, if_true, Bool.false_eq_true, if_false]
  rfl

theorem main_unsteady_match (root : Config) (others : List Config)
    (res : Int → Nat → Nat → Residuals)
    (h : ((others.length + 1 : Nat) : Int) = root.n_splits) :
    (main_unsteady root others res).1 = Exit.returned 0
    ∧ Call.loadMeshDataFromSteady ∈ (main_unsteady root others res).2.log := by
  obtain ⟨t, ht⟩ := timeLoop_log_extends root.timesteps
    (unsteadyTimeStep (others.length + 1) root.mu root.dt res)
    (unsteadyTimeStep_log_extends (others.length + 1) root.mu root.dt res)
    (root.timesteps + 1).toNat 0
    { alpha_p := 1 / 2, alpha_uv := 7 / 10, inter := 0,
      log := [Call.MPI_Init] ++ zeroFieldsCalls ++ [Call.loadMeshDataFromSteady] }
  have hs := consistencyCheck_after_broadcast root others
  have hl : (broadcastConfig (root :: others)).length = others.length + 1 := by
    rw [broadcastConfig_eq_replicate, List.length_replicate]
  simp only [main_unsteady, unsteadyFromCheck, hs, broadcastConfig_head, hl, h, ne_eq,
    not_true_eq_false, if_false, Bool.false_eq_true]
  refine ⟨trivial, ?_⟩
  rw [ht]
  simp

/-- C4: in each driver, when the number of processes differs from `n_splits`
the run returns exit code 1 without entering the body of the time-stepping
loop; when they are equal the run goes on past the check (it loads the
initial fields) and its completion returns 0. For the unsteady driver the
number of processes is that of the ranks `root :: others` and `n_splits` the
value of rank 0, which the broadcast gives to every rank. -/
theorem process_count_check (cfg root : Config) (num_procs : Nat) (others : List Config)
    (res : Int → Nat → Nat → Residuals) :
    ((num_procs : Int) ≠ cfg.n_splits →
      (main_steady cfg num_procs res).1 = Exit.returned 1
      ∧ ∀ i, Call.beginTimeStep i ∉ (main_steady cfg num_procs res).2.log)
    ∧ ((num_procs : Int) = cfg.n_splits →
      (main_steady cfg num_procs res).1 = Exit.returned 0
      ∧ Call.loadMeshDataFromSteady ∈ (main_steady cfg num_procs res).2.log)
    ∧ (((others.length + 1 : Nat) : Int) ≠ root.n_splits →
      (main_unsteady root others res).1 = Exit.returned 1
      ∧ ∀ i, Call.beginTimeStep i ∉ (main_unsteady root others res).2.log)
    ∧ (((others.length + 1 : Nat) : Int) = root.n_splits →
      (main_unsteady root others res).1 = Exit.returned 0
      ∧ Call.loadMeshDataFromSteady ∈ (main_unsteady root others res).2.log) := by
  refine ⟨?_, main_steady_match cfg num_procs res, ?_, main_unsteady_match root others res⟩
  · intro h
    rw [main_steady_mismatch cfg num_procs res h]
    exact ⟨rfl, by intro i; simp⟩
  · intro h
    rw [main_unsteady_mismatch root others res h]
    exact ⟨rfl, by intro i; simp⟩

/-- Witness of C4: the sample parameters (`n_splits = 2`) on three processes
and on two. -/
theorem process_count_check_witness :
    ((main_steady sampleConfig 3 (fun _ => dropToZero)).1 = Exit.returned 1
      ∧ ∀ i, Call.beginTimeStep i ∉ (main_steady sampleConfig 3 (fun _ => dropToZero)).2.log)
    ∧ (main_steady sampleConfig 2 (fun _ => dropToZero)).1 = Exit.returned 0
    ∧ (main_unsteady sampleConfig [sampleConfig, sampleConfig] (fun _ => dropToZero)).1
        = Exit.returned 1
    ∧ (main_unsteady sampleConfig [sampleConfig] (fun _ => dropToZero)).1 = Exit.returned 0 :=
  ⟨(process_count_check sampleConfig sampleConfig 3 [] (fun _ => dropToZero)).1 (by decide),
   ((process_count_check sampleConfig sampleConfig 2 [] (fun _ => dropToZero)).2.1
      (by decide)).1,
   ((process_count_check sampleConfig sampleConfig 2 [sampleConfig, sampleConfig]
      (fun _ => dropToZero)).2.2.1 (by decide)).1,
   ((process_count_check sampleConfig sampleConfig 2 [sampleConfig]
      (fun _ => dropToZero)).2.2.2 (by decide)).1⟩

/-! ## The consistency check of the unsteady driver -/

theorem allreduce_spread_gt_iff (l : List Double) (hl : l ≠ []) (tol : Double) :
    |MPI_Allreduce_MAX l - MPI_Allreduce_MIN l| > tol ↔ ∃ x ∈ l, ∃ y ∈ l, |x - y| > tol := by
  constructor
  · intro h
    exact ⟨_, allreduceMax_mem l hl, _, allreduceMin_mem l hl, h⟩
  · rintro ⟨x, hx, y, hy, hxy⟩
    have h1 := allreduceMax_ge l x hx
    have h2 := allreduceMax_ge l y hy
    have h3 := allreduceMin_le l x hx
    have h4 := allreduceMin_le l y hy
    have hle : |x - y| ≤ |MPI_Allreduce_MAX l - MPI_Allreduce_MIN l| := by
      rw [abs_le]
      have h5 : MPI_Allreduce_MAX l - MPI_Allreduce_MIN l
          ≤ |MPI_Allreduce_MAX l - MPI_Allreduce_MIN l| := le_abs_self _
      constructor <;> linarith
    exact lt_of_lt_of_le hxy hle

theorem allreduce_max_eq_min_iff {α : Type} [LinearOrder α] [Inhabited α] (l : List α)
    (hl : l ≠ []) :
    MPI_Allreduce_MAX l = MPI_Allreduce_MIN l ↔ ∀ x ∈ l, ∀ y ∈ l, x = y := by
  constructor
  · intro h x hx y hy
    have h1 := allreduceMax_ge l x hx
    have h2 := allreduceMax_ge l y hy
    have h3 := allreduceMin_le l x hx
    have h4 := allreduceMin_le l y hy
    rw [h] at h1 h2
    exact le_antisymm (le_trans h1 h4) (le_trans h2 h3)
  · intro h
    exact h _ (allreduceMax_mem l hl) _ (allreduceMin_mem l hl)

theorem folder_match_zero_or_one (s : String) (l : List String) :
    folder_match s l = 0 ∨ folder_match s l = 1 := by
  induction l with
  | nil => right; rfl
  | cons t rest ih =>
    rw [folder_match]
    split
    · left; rfl
    · exact ih

theorem folder_match_eq_zero_iff (s : String) (l : List String) :
    folder_match s l = 0 ↔ ∃ t ∈ l, t ≠ s := by
  induction l with
  | nil => simp [folder_match]
  | cons t rest ih =>
    rw [folder_match]
    by_cases h : t = s
    · simp [h, ih]
    · simp only [ne_eq, h, not_false_eq_true, if_true, List.mem_cons, true_iff]
      exact ⟨t, Or.inl rfl, h⟩

theorem global_folder_match_eq_zero_iff (cfgs : List Config) (hne : cfgs ≠ []) :
    global_folder_match cfgs = 0
      ↔ ∃ a ∈ cfgs, ∃ b ∈ cfgs, a.mesh_folder ≠ b.mesh_folder := by
  have hne2 : cfgs.map (fun c => folder_match c.mesh_folder
      (MPI_Allgather (cfgs.map (fun k => k.mesh_folder)))) ≠ [] := by
    intro h; exact hne (List.map_eq_nil_iff.mp h)
  unfold global_folder_match
  constructor
  · intro h
    have hm := allreduceMin_mem _ hne2
    rw [h, List.mem_map] at hm
    obtain ⟨a, ha, hz⟩ := hm
    rw [folder_match_eq_zero_iff] at hz
    obtain ⟨t, ht, hts⟩ := hz
    simp only [MPI_Allgather, List.mem_map] at ht
    obtain ⟨b, hb, rfl⟩ := ht
    exact ⟨a, ha, b, hb, fun e => hts e.symm⟩
  · rintro ⟨a, ha, b, hb, hab⟩
    have hz : folder_match a.mesh_folder
        (MPI_Allgather (cfgs.map (fun k => k.mesh_folder))) = 0 := by
      rw [folder_match_eq_zero_iff]
      exact ⟨b.mesh_folder, by simp only [MPI_Allgather, List.mem_map]; exact ⟨b, hb, rfl⟩,
        fun e => hab e.symm⟩
    have hle := allreduceMin_le (cfgs.map (fun c => folder_match c.mesh_folder
      (MPI_Allgather (cfgs.map (fun k => k.mesh_folder))))) 0
      (List.mem_map.mpr ⟨a, ha, hz⟩)
    have hm := allreduceMin_mem _ hne2
    rw [List.mem_map] at hm
    obtain ⟨c, _, hc⟩ := hm
    rcases folder_match_zero_or_one c.mesh_folder
      (MPI_Allgather (cfgs.map (fun k => k.mesh_folder))) with h0 | h1
    · rw [← hc]; exact h0
    · rw [← hc, h1] at hle; omega

theorem float_consistent_eq_false_iff (cfgs : List Config) (hne : cfgs ≠ []) :
    float_consistent cfgs = false
      ↔ ∃ a ∈ cfgs, ∃ b ∈ cfgs,
          |a.dx - b.dx| > 1 / 10 ^ 12 ∨ |a.dy - b.dy| > 1 / 10 ^ 12
          ∨ |a.dt - b.dt| > 1 / 10 ^ 12 ∨ |a.mu - b.mu| > 1 / 10 ^ 12 := by
  have key : ∀ f : Config → Double,
      |MPI_Allreduce_MAX (cfgs.map f) - MPI_Allreduce_MIN (cfgs.map f)| > 1 / 10 ^ 12
        ↔ ∃ a ∈ cfgs, ∃ b ∈ cfgs, |f a - f b| > 1 / 10 ^ 12 := by
    intro f
    rw [allreduce_spread_gt_iff _ (fun h => hne (List.map_eq_nil_iff.mp h))]
    simp only [List.mem_map]
    constructor
    · rintro ⟨x, ⟨a, ha, rfl⟩, y, ⟨b, hb, rfl⟩, h⟩
      exact ⟨a, ha, b, hb, h⟩
    · rintro ⟨a, ha, b, hb, h⟩
      exact ⟨_, ⟨a, ha, rfl⟩, _, ⟨b, hb, rfl⟩, h⟩
  rw [← Bool.not_eq_true]
  simp only [float_consistent, local_vals, List.all_cons, List.all_nil, Bool.and_true,
    Bool.and_eq_true, Bool.not_eq_true', decide_eq_false_iff_not, not_and_or, not_not, key]
  constructor
  · rintro (⟨a, ha, b, hb, h⟩ | ⟨a, ha, b, hb, h⟩ | ⟨a, ha, b, hb, h⟩ | ⟨a, ha, b, hb, h⟩)
    · exact ⟨a, ha, b, hb, Or.inl h⟩
    · exact ⟨a, ha, b, hb, Or.inr (Or.inl h)⟩
    · exact ⟨a, ha, b, hb, Or.inr (Or.inr (Or.inl h))⟩
    · exact ⟨a, ha, b, hb, Or.inr (Or.inr (Or.inr h))⟩
  · rintro ⟨a, ha, b, hb, h | h | h | h⟩
    · exact Or.inl ⟨a, ha, b, hb, h⟩
    · exact Or.inr (Or.inl ⟨a, ha, b, hb, h⟩)
    · exact Or.inr (Or.inr (Or.inl ⟨a, ha, b, hb, h⟩))
    · exact Or.inr (Or.inr (Or.inr ⟨a, ha, b, hb, h⟩))

theorem int_consistent_eq_false_iff (cfgs : List Config) (hne : cfgs ≠ []) :
    int_consistent cfgs = false
      ↔ ∃ a ∈ cfgs, ∃ b ∈ cfgs, a.timesteps ≠ b.timesteps ∨ a.n_splits ≠ b.n_splits := by
  have key : ∀ f : Config → Int,
      MPI_Allreduce_MAX (cfgs.map f) = MPI_Allreduce_MIN (cfgs.map f)
        ↔ ∀ a ∈ cfgs, ∀ b ∈ cfgs, f a = f b := by
    intro f
    rw [allreduce_max_eq_min_iff _ (fun h => hne (List.map_eq_nil_iff.mp h))]
    simp only [List.mem_map]
    constructor
    · intro h a ha b hb
      exact h _ ⟨a, ha, rfl⟩ _ ⟨b, hb, rfl⟩
    · rintro h x ⟨a, ha, rfl⟩ y ⟨b, hb, rfl⟩
      exact h a ha b hb
  rw [← Bool.not_eq_true]
  simp only [int_consistent, Bool.and_eq_true, beq_iff_eq, key, not_and_or]
  constructor
  · rintro (h | h)
    · push_neg at h
      obtain ⟨a, ha, b, hb, hab⟩ := h
      exact ⟨a, ha, b, hb, Or.inl hab⟩
    · push_neg at h
      obtain ⟨a, ha, b, hb, hab⟩ := h
      exact ⟨a, ha, b, hb, Or.inr hab⟩
  · rintro ⟨a, ha, b, hb, h | h⟩
    · exact Or.inl (fun hall => h (hall a ha b hb))
    · exact Or.inr (fun hall => h (hall a ha b hb))

/-- The abort branch is taken exactly when two ranks present values that
differ by more than `1e-12` in a floating-point parameter, or differ at all
in an integer parameter or the folder. -/
theorem consistencyCheckAborts_iff (cfgs : List Config) (hne : cfgs ≠ []) :
    consistencyCheckAborts cfgs = true
      ↔ ∃ a ∈ cfgs, ∃ b ∈ cfgs,
          |a.dx - b.dx| > 1 / 10 ^ 12 ∨ |a.dy - b.dy| > 1 / 10 ^ 12
          ∨ |a.dt - b.dt| > 1 / 10 ^ 12 ∨ |a.mu - b.mu| > 1 / 10 ^ 12
          ∨ a.timesteps ≠ b.timesteps ∨ a.n_splits ≠ b.n_splits
          ∨ a.mesh_folder ≠ b.mesh_folder := by
  simp only [consistencyCheckAborts, Bool.or_eq_true, Bool.not_eq_true', beq_iff_eq,
    float_consistent_eq_false_iff cfgs hne, int_consistent_eq_false_iff cfgs hne,
    global_folder_match_eq_zero_iff cfgs hne]
  constructor
  · rintro ((⟨a, ha, b, hb, h⟩ | ⟨a, ha, b, hb, h⟩) | ⟨a, ha, b, hb, h⟩)
    · refine ⟨a, ha, b, hb, ?_⟩
      rcases h with h | h | h | h
      · exact Or.inl h
      · exact Or.inr (Or.inl h)
      · exact Or.inr (Or.inr (Or.inl h))
      · exact Or.inr (Or.inr (Or.inr (Or.inl h)))
    · refine ⟨a, ha, b, hb, ?_⟩
      rcases h with h | h
      · exact Or.inr (Or.inr (Or.inr (Or.inr (Or.inl h))))
      · exact Or.inr (Or.inr (Or.inr (Or.inr (Or.inr (Or.inl h)))))
    · exact ⟨a, ha, b, hb, Or.inr (Or.inr (Or.inr (Or.inr (Or.inr (Or.inr h)))))⟩
  · rintro ⟨a, ha, b, hb, h | h | h | h | h | h | h⟩
    · exact Or.inl (Or.inl ⟨a, ha, b, hb, Or.inl h⟩)
    · exact Or.inl (Or.inl ⟨a, ha, b, hb, Or.inr (Or.inl h)⟩)
    · exact Or.inl (Or.inl ⟨a, ha, b, hb, Or.inr (Or.inr (Or.inl h))⟩)
    · exact Or.inl (Or.inl ⟨a, ha, b, hb, Or.inr (Or.inr (Or.inr h))⟩)
    · exact Or.inl (Or.inr ⟨a, ha, b, hb, Or.inl h⟩)
    · exact Or.inl (Or.inr ⟨a, ha, b, hb, Or.inr h⟩)
    · exact Or.inr ⟨a, ha, b, hb, h⟩

theorem unsteadyFromCheck_aborts (cfg : Config) (cfgs : List Config)
    (res : Int → Nat → Nat → Residuals) (h : consistencyCheckAborts cfgs = true) :
    unsteadyFromCheck cfg cfgs res
      = (Exit.aborted 1,
         { alpha_p := 0, alpha_uv := 0, inter := 0,
           log := [Call.MPI_Init, Call.MPI_Abort 1] }) := by
  simp [unsteadyFromCheck, h]

theorem unsteadyFromCheck_passes (cfg : Config) (cfgs : List Config)
    (res : Int → Nat → Nat → Residuals) (h : consistencyCheckAborts cfgs = false) :
    (unsteadyFromCheck cfg cfgs res).1 = Exit.returned 1
    ∨ (unsteadyFromCheck cfg cfgs res).1 = Exit.returned 0 := by
  simp only [unsteadyFromCheck, h, Bool.false_eq_true, if_false]
  split
  · left; rfl
  · right; rfl

theorem sample_nearby_no_abort :
    consistencyCheckAborts [sampleConfig, nearbyConfig] = false := by
  rw [← Bool.not_eq_true, consistencyCheckAborts_iff _ (by simp)]
  simp only [List.mem_cons, List.mem_singleton, List.not_mem_nil, or_false]
  rintro ⟨a, ha, b, hb, h⟩
  rcases ha with rfl | rfl <;> rcases hb with rfl | rfl <;>
    norm_num [sampleConfig, nearbyConfig] at h <;>
    rw [abs_of_pos (by norm_num)] at h <;>
    norm_num at h

/-- Counterexample to C5 as stated: two ranks present time steps that differ
(`0.1` and `0.1 + 1e-13`), the check does not take the abort branch, and the
run goes on to return 0. -/
theorem consistency_check_misses_small_difference :
    sampleConfig.dt ≠ nearbyConfig.dt
    ∧ consistencyCheckAborts [sampleConfig, nearbyConfig] = false
    ∧ (unsteadyFromCheck sampleConfig [sampleConfig, nearbyConfig]
        (fun _ => dropToZero)).1 = Exit.returned 0 := by
  refine ⟨by norm_num [sampleConfig, nearbyConfig], sample_nearby_no_abort, ?_⟩
  simp only [unsteadyFromCheck, sample_nearby_no_abort, Bool.false_eq_true, if_false]
  rw [if_neg (by decide)]

/-- C5 (amended): in the unsteady driver's consistency check, for the values
a non-empty set of ranks presents, the abort branch (`MPI_Abort` with code 1)
is taken exactly when two ranks differ by more than `1e-12` in `dx`, `dy`,
`dt` or `mu`, or differ in `timesteps`, `n_splits` or `mesh_folder`; when it
is taken the run ends with that abort before the time-stepping loop begins,
and when all ranks agree it is not taken and the run does not abort. -/
theorem consistency_check_with_tolerance (cfgs : List Config) (cfg : Config)
    (res : Int → Nat → Nat → Residuals) (hne : cfgs ≠ []) :
    (consistencyCheckAborts cfgs = true
      ↔ ∃ a ∈ cfgs, ∃ b ∈ cfgs,
          |a.dx - b.dx| > 1 / 10 ^ 12 ∨ |a.dy - b.dy| > 1 / 10 ^ 12
          ∨ |a.dt - b.dt| > 1 / 10 ^ 12 ∨ |a.mu - b.mu| > 1 / 10 ^ 12
          ∨ a.timesteps ≠ b.timesteps ∨ a.n_splits ≠ b.n_splits
          ∨ a.mesh_folder ≠ b.mesh_folder)
    ∧ (consistencyCheckAborts cfgs = true →
        (unsteadyFromCheck cfg cfgs res).1 = Exit.aborted 1
        ∧ (unsteadyFromCheck cfg cfgs res).2.log = [Call.MPI_Init, Call.MPI_Abort 1]
        ∧ ∀ i, Call.beginTimeStep i ∉ (unsteadyFromCheck cfg cfgs res).2.log)
    ∧ ((∀ a ∈ cfgs, ∀ b ∈ cfgs, a = b) →
        consistencyCheckAborts cfgs = false
        ∧ (unsteadyFromCheck cfg cfgs res).1 ≠ Exit.aborted 1) := by
  refine ⟨consistencyCheckAborts_iff cfgs hne, ?_, ?_⟩
  · intro h
    rw [unsteadyFromCheck_aborts cfg cfgs res h]
    exact ⟨rfl, rfl, by intro i; simp⟩
  · intro hall
    have hno : consistencyCheckAborts cfgs = false := by
      rw [← Bool.not_eq_true, consistencyCheckAborts_iff cfgs hne]
      rintro ⟨a, ha, b, hb, h⟩
      rw [hall a ha b hb] at h
      simp only [sub_self, abs_zero, ne_eq, not_true_eq_false, or_false] at h
      norm_num at h
    refine ⟨hno, ?_⟩
    rcases unsteadyFromCheck_passes cfg cfgs res hno with h | h <;> rw [h] <;> simp

/-- Witness of C5 (amended): two ranks that present different numbers of
time steps abort; two ranks that present the same values do not. -/
theorem consistency_check_with_tolerance_witness :
    ((unsteadyFromCheck sampleConfig [sampleConfig, otherStepsConfig]
        (fun _ => dropToZero)).1 = Exit.aborted 1
      ∧ (unsteadyFromCheck sampleConfig [sampleConfig, otherStepsConfig]
          (fun _ => dropToZero)).2.log = [Call.MPI_Init, Call.MPI_Abort 1]
      ∧ ∀ i, Call.beginTimeStep i ∉ (unsteadyFromCheck sampleConfig
          [sampleConfig, otherStepsConfig] (fun _ => dropToZero)).2.log)
    ∧ (consistencyCheckAborts [sampleConfig, sampleConfig] = false
      ∧ (unsteadyFromCheck sampleConfig [sampleConfig, sampleConfig]
          (fun _ => dropToZero)).1 ≠ Exit.aborted 1) :=
  ⟨(consistency_check_with_tolerance [sampleConfig, otherStepsConfig] sampleConfig
      (fun _ => dropToZero) (by simp)).2.1
      ((consistency_check_with_tolerance [sampleConfig, otherStepsConfig] sampleConfig
        (fun _ => dropToZero) (by simp)).1.mpr
        ⟨sampleConfig, by simp, otherStepsConfig, by simp,
          Or.inr (Or.inr (Or.inr (Or.inr (Or.inl (by decide)))))⟩),
   (consistency_check_with_tolerance [sampleConfig, sampleConfig] sampleConfig
      (fun _ => dropToZero) (by simp)).2.2
      (by intro a ha b hb; simp at ha hb; rw [ha, hb])⟩

/-! ## The calls of the outer loop and of the time-stepping loop -/

theorem outerLoopFrom_calls (max_outer_iterations P : Nat) (body : List Call)
    (res : Nat → Nat → Residuals) :
    ∀ (fuel n : Nat) (inits : Nat → InitNorms),
      ∀ it ∈ outerLoopFrom max_outer_iterations P body res fuel n inits,
        it.2 = body ∨ it.2 = body ++ [Call.MPI_Barrier] := by
  intro fuel
  induction fuel with
  | zero => intro n inits it hit; simp [outerLoopFrom] at hit
  | succ fuel ih =>
    intro n inits it hit
    by_cases hle : n ≤ max_outer_iterations
    · rw [outerLoopFrom_step _ _ _ _ _ _ _ (Nat.succ_pos fuel) hle] at hit
      split at hit
      · rw [List.mem_singleton] at hit
        left; rw [hit]
      · rcases List.mem_cons.mp hit with h | h
        · right; rw [h]
        · exact ih _ _ it h
    · simp [outerLoopFrom, hle] at hit

theorem outerLoop_call_mem (max_outer_iterations P : Nat) (body : List Call)
    (res : Nat → Nat → Residuals) (c : Call)
    (hc : c ∈ (outerLoop max_outer_iterations P body res).flatMap (fun it => it.2)) :
    c ∈ body ∨ c = Call.MPI_Barrier := by
  rw [List.mem_flatMap] at hc
  obtain ⟨it, hit, hcit⟩ := hc
  rcases outerLoopFrom_calls max_outer_iterations P body res _ _ _ it hit with h | h
  · left; rw [← h]; exact hcit
  · rw [h, List.mem_append, List.mem_singleton] at hcit
    exact hcit

theorem outerLoop_runs_body (max_outer_iterations P : Nat) (body : List Call)
    (res : Nat → Nat → Residuals) (hmax : 1 ≤ max_outer_iterations) (c : Call)
    (hc : c ∈ body) :
    c ∈ (outerLoop max_outer_iterations P body res).flatMap (fun it => it.2) := by
  rw [List.mem_flatMap]
  unfold outerLoop
  rw [outerLoopFrom_step _ _ _ _ _ _ _ (by omega) hmax]
  split
  · exact ⟨_, List.mem_singleton.mpr rfl, hc⟩
  · exact ⟨_, List.mem_cons_self _ _, List.mem_append_left _ hc⟩

theorem timeLoop_invariant (timesteps : Int) (body : Int → Driver → Driver)
    (Inv : Driver → Prop) (hbody : ∀ i d, Inv d → Inv (body i d)) :
    ∀ (fuel : Nat) (i : Int) (d : Driver),
      Inv d → Inv (timeLoop timesteps body fuel i d) := by
  intro fuel
  induction fuel with
  | zero => intro i d hd; exact hd
  | succ fuel ih =>
    intro i d hd
    rw [timeLoop]
    split
    · exact ih (wrapInt32 (i + 1)) (body i d) (hbody i d hd)
    · exact hd

theorem timeLoop_first_step (timesteps : Int) (body : Int → Driver → Driver)
    (hbody : ∀ i d, ∃ t, (body i d).log = d.log ++ t) (d : Driver)
    (hts : 0 ≤ timesteps) :
    ∃ t, (timeLoop timesteps body (timesteps + 1).toNat 0 d).log = (body 0 d).log ++ t := by
  have hf : (timesteps + 1).toNat = (timesteps.toNat) + 1 := by omega
  rw [hf, timeLoop, if_pos hts]
  exact timeLoop_log_extends timesteps body hbody _ _ _

theorem steadyOuterBody_correct_pressure (mu dt alpha_uv alpha_p a : Double)
    (h : Call.correct_pressure a ∈ steadyOuterBody mu dt alpha_uv alpha_p) :
    a = alpha_p := by
  simp [steadyOuterBody] at h
  exact h

theorem steadyTimeStep_alpha_p (P : Nat) (mu dt : Double)
    (res : Int → Nat → Nat → Residuals) (i : Int) (d : Driver)
    (hd : d.alpha_p = 1 / 10
      ∧ ∀ a, Call.correct_pressure a ∈ d.log → a = 1 / 10) :
    (steadyTimeStep P mu dt res i d).alpha_p = 1 / 10
      ∧ ∀ a, Call.correct_pressure a ∈ (steadyTimeStep P mu dt res i d).log → a = 1 / 10 := by
  refine ⟨hd.1, ?_⟩
  intro a ha
  simp only [steadyTimeStep, List.mem_append, List.mem_cons, List.mem_singleton,
    List.not_mem_nil, or_false] at ha
  rcases ha with ((h | h) | h) | h
  · exact hd.2 a h
  · rcases h with h | h <;> cases h
  · rcases outerLoop_call_mem _ _ _ _ _ h with h2 | h2
    · rw [steadyOuterBody_correct_pressure _ _ _ _ _ h2, hd.1]
    · cases h2
  · rcases h with h | h | h <;> cases h

theorem main_steady_correct_pressure_arg (cfg : Config) (num_procs : Nat)
    (res : Int → Nat → Nat → Residuals) (a : Double)
    (ha : Call.correct_pressure a ∈ (main_steady cfg num_procs res).2.log) :
    a = 1 / 10 := by
  by_cases h : (num_procs : Int) ≠ cfg.n_splits
  · rw [main_steady_mismatch cfg num_procs res h] at ha
    simp at ha
  · have hinv := timeLoop_invariant cfg.timesteps
      (steadyTimeStep num_procs cfg.mu cfg.dt res)
      (fun d => d.alpha_p = 1 / 10 ∧ ∀ a, Call.correct_pressure a ∈ d.log → a = 1 / 10)
      (steadyTimeStep_alpha_p num_procs cfg.mu cfg.dt res)
      (cfg.timesteps + 1).toNat 0
      { alpha_p := 1 / 10, alpha_uv := 1 / 2, inter := 0,
        log := [Call.MPI_Init, Call.MPI_Barrier] ++ zeroFieldsCalls
          ++ [Call.loadMeshDataFromSteady] }
      ⟨rfl, by intro a ha; simp [zeroFieldsCalls] at ha⟩
    simp only [main_steady, h, if_false, List.mem_append, List.mem_cons,
      List.mem_singleton, List.not_mem_nil, or_false] at ha
    rcases ha with ha | ha
    · exact hinv.2 a ha
    · rcases ha with ha | ha <;> cases ha

theorem main_steady_calls_correct_pressure (cfg : Config) (num_procs : Nat)
    (res : Int → Nat → Nat → Residuals) (h : (num_procs : Int) = cfg.n_splits)
    (hts : 0 ≤ cfg.timesteps) :
    Call.correct_pressure (1 / 10) ∈ (main_steady cfg num_procs res).2.log := by
  obtain ⟨t, ht⟩ := timeLoop_first_step cfg.timesteps
    (steadyTimeStep num_procs cfg.mu cfg.dt res)
    (steadyTimeStep_log_extends num_procs cfg.mu cfg.dt res)
    { alpha_p := 1 / 10, alpha_uv := 1 / 2, inter := 0,
      log := [Call.MPI_Init, Call.MPI_Barrier] ++ zeroFieldsCalls
        ++ [Call.loadMeshDataFromSteady] } hts
  simp only [main_steady, h, ne_eq, not_true_eq_false, if_false]
  rw [ht]
  apply List.mem_append_left
  apply List.mem_append_left
  simp only [steadyTimeStep]
  apply List.mem_append_left
  apply List.mem_append_right
  apply outerLoop_runs_body _ _ _ _ (by decide)
  simp [steadyOuterBody]

/-- C6, the behaviour of the code: in every run of the steady-variant driver
each call of `correct_pressure` receives `alpha_p = 0.1`, the value the local
is initialised with, and no iteration count makes
`computePressureRelaxationFactor` return that value; the run of the sample
parameters on two processes makes such a call. -/
theorem steady_alpha_p_is_not_scheduled (cfg : Config) (num_procs : Nat)
    (res : Int → Nat → Nat → Residuals) (a : Double) (iter : Int) :
    (Call.correct_pressure a ∈ (main_steady cfg num_procs res).2.log ↔
      (a = 1 / 10 ∧ Call.correct_pressure (1 / 10) ∈ (main_steady cfg num_procs res).2.log))
    ∧ computePressureRelaxationFactor iter ≠ 1 / 10
    ∧ Call.correct_pressure (1 / 10)
        ∈ (main_steady sampleConfig 2 (fun _ => dropToZero)).2.log
    ∧ Call.correct_pressure (computePressureRelaxationFactor 1)
        ∉ (main_steady sampleConfig 2 (fun _ => dropToZero)).2.log := by
  refine ⟨?_, ?_, ?_, ?_⟩
  · constructor
    · intro h
      have ha := main_steady_correct_pressure_arg cfg num_procs res a h
      subst ha
      exact ⟨rfl, h⟩
    · rintro ⟨rfl, h⟩
      exact h
  · unfold computePressureRelaxationFactor
    split <;> norm_num
  · exact main_steady_calls_correct_pressure sampleConfig 2 _ (by decide) (by decide)
  · intro h
    have ha := main_steady_correct_pressure_arg _ _ _ _ h
    unfold computePressureRelaxationFactor at ha
    norm_num at ha

theorem unsteadyOuterBody_no_face_exchange (mu dt alpha_uv alpha_p : Double) (c : Call)
    (hc : c ∈ unsteadyOuterBody mu dt alpha_uv alpha_p) :
    c ≠ Call.exchangeColumns FieldId.u_face ∧ c ≠ Call.exchangeColumns FieldId.v_face := by
  simp only [unsteadyOuterBody, List.mem_cons, List.mem_singleton, List.not_mem_nil,
    or_false] at hc
  constructor <;> intro h <;> subst h <;> simp at hc

theorem unsteadyTimeStep_no_face_exchange (P : Nat) (mu dt : Double)
    (res : Int → Nat → Nat → Residuals) (i : Int) (d : Driver)
    (hd : ∀ c ∈ d.log,
      c ≠ Call.exchangeColumns FieldId.u_face ∧ c ≠ Call.exchangeColumns FieldId.v_face) :
    ∀ c ∈ (unsteadyTimeStep P mu dt res i d).log,
      c ≠ Call.exchangeColumns FieldId.u_face ∧ c ≠ Call.exchangeColumns FieldId.v_face := by
  intro c hc
  simp only [unsteadyTimeStep, List.mem_append, List.mem_cons, List.mem_singleton,
    List.not_mem_nil, or_false] at hc
  rcases hc with (((h | h) | h) | h) | h
  · exact hd c h
  · rcases h with h | h <;> subst h <;> simp
  · rcases outerLoop_call_mem _ _ _ _ _ h with h2 | h2
    · exact unsteadyOuterBody_no_face_exchange _ _ _ _ c h2
    · subst h2; simp
  · split at h
    · rw [List.mem_singleton] at h; subst h; simp
    · simp at h
  · rcases h with h | h <;> subst h <;> simp

theorem unsteadyFromCheck_no_face_exchange (cfg : Config) (presented : List Config)
    (res : Int → Nat → Nat → Residuals) :
    ∀ c ∈ (unsteadyFromCheck cfg presented res).2.log,
      c ≠ Call.exchangeColumns FieldId.u_face ∧ c ≠ Call.exchangeColumns FieldId.v_face := by
  intro c hc
  have hinv := timeLoop_invariant cfg.timesteps
    (unsteadyTimeStep presented.length cfg.mu cfg.dt res)
    (fun d => ∀ c ∈ d.log,
      c ≠ Call.exchangeColumns FieldId.u_face ∧ c ≠ Call.exchangeColumns FieldId.v_face)
    (unsteadyTimeStep_no_face_exchange presented.length cfg.mu cfg.dt res)
    (cfg.timesteps + 1).toNat 0
    { alpha_p := 1 / 2, alpha_uv := 7 / 10, inter := 0,
      log := [Call.MPI_Init] ++ zeroFieldsCalls ++ [Call.loadMeshDataFromSteady] }
    (by
      intro c hc
      simp only [zeroFieldsCalls, List.mem_append, List.mem_cons, List.mem_singleton,
        List.not_mem_nil, or_false] at hc
      constructor <;> intro h <;> subst h <;> simp at hc)
  unfold unsteadyFromCheck at hc
  simp only at hc
  split at hc
  · simp only [List.mem_append, List.mem_cons, List.mem_singleton, List.not_mem_nil,
      or_false] at hc
    rcases hc with h | h <;> subst h <;> simp
  · split at hc
    · simp only [List.mem_append, List.mem_cons, List.mem_singleton, List.not_mem_nil,
        or_false] at hc
      rcases hc with h | h <;> subst h <;> simp
    · simp only [List.mem_append, List.mem_cons, List.mem_singleton, List.not_mem_nil,
        or_false] at hc
      rcases hc with h | h
      · exact hinv c h
      · rcases h with h | h | h <;> subst h <;> simp

theorem main_unsteady_runs_face_velocity (root : Config) (others : List Config)
    (res : Int → Nat → Nat → Residuals)
    (h : ((others.length + 1 : Nat) : Int) = root.n_splits) (hts : 0 ≤ root.timesteps) :
    Call.face_velocity ∈ (main_unsteady root others res).2.log
    ∧ Call.pressure_function ∈ (main_unsteady root others res).2.log := by
  obtain ⟨t, ht⟩ := timeLoop_first_step root.timesteps
    (unsteadyTimeStep (others.length + 1) root.mu root.dt res)
    (unsteadyTimeStep_log_extends (others.length + 1) root.mu root.dt res)
    { alpha_p := 1 / 2, alpha_uv := 7 / 10, inter := 0,
      log := [Call.MPI_Init] ++ zeroFieldsCalls ++ [Call.loadMeshDataFromSteady] } hts
  have hs := consistencyCheck_after_broadcast root others
  have hl : (broadcastConfig (root :: others)).length = others.length + 1 := by
    rw [broadcastConfig_eq_replicate, List.length_replicate]
  simp only [main_unsteady, unsteadyFromCheck, hs, broadcastConfig_head, hl, h, ne_eq,
    not_true_eq_false, if_false, Bool.false_eq_true]
  rw [ht]
  constructor <;>
  · apply List.mem_append_left
    apply List.mem_append_left
    simp only [unsteadyTimeStep]
    apply List.mem_append_left
    apply List.mem_append_left
    apply List.mem_append_right
    apply outerLoop_runs_body _ _ _ _ (by decide)
    simp [unsteadyOuterBody]

/-- C10, the behaviour of the code: the outer iteration of the steady-variant
driver calls `exchangeColumns` on `u_face` and on `v_face` between
`face_velocity` and `pressure_function`; the outer iteration of the unsteady
driver has only an `MPI_Barrier` and `equ_p.initializeToZero()` between the
two, no run of the unsteady driver ever calls `exchangeColumns` on `u_face` or
`v_face`, and the run of the sample parameters on two processes does call
`face_velocity` and `pressure_function`. -/
theorem unsteady_omits_face_exchange (mu dt alpha_uv alpha_p : Double) (root : Config)
    (others : List Config) (res : Int → Nat → Nat → Residuals) :
    ((steadyOuterBody mu dt alpha_uv alpha_p).drop 15).take 5
        = [Call.face_velocity, Call.exchangeColumns FieldId.u_face,
           Call.exchangeColumns FieldId.v_face, Call.initializeToZero EqId.equ_p,
           Call.pressure_function]
    ∧ ((unsteadyOuterBody mu dt alpha_uv alpha_p).drop 15).take 4
        = [Call.face_velocity, Call.MPI_Barrier, Call.initializeToZero EqId.equ_p,
           Call.pressure_function]
    ∧ Call.exchangeColumns FieldId.u_face ∉ (main_unsteady root others res).2.log
    ∧ Call.exchangeColumns FieldId.v_face ∉ (main_unsteady root others res).2.log
    ∧ Call.face_velocity
        ∈ (main_unsteady sampleConfig [sampleConfig] (fun _ => dropToZero)).2.log
    ∧ Call.pressure_function
        ∈ (main_unsteady sampleConfig [sampleConfig] (fun _ => dropToZero)).2.log := by
  refine ⟨rfl, rfl, ?_, ?_, ?_, ?_⟩
  · intro h
    exact (unsteadyFromCheck_no_face_exchange _ _ res _ h).1 rfl
  · intro h
    exact (unsteadyFromCheck_no_face_exchange _ _ res _ h).2 rfl
  · exact (main_unsteady_runs_face_velocity sampleConfig [sampleConfig] _
      (by decide) (by decide)).1
  · exact (main_unsteady_runs_face_velocity sampleConfig [sampleConfig] _
      (by decide) (by decide)).2

/-! ## Loading a matrix -/

theorem readRow_numeric (row : List Double) : readRow (row.map Tok.num) = row := by
  induction row with
  | nil => rfl
  | cons x t ih => simp [readRow, ih]

theorem loadLoop_uniform (c : Nat) :
    ∀ (nums : List (List Double)) (rows : Int) (values : List Double),
      (∀ row ∈ nums, row.length = c) →
      loadLoop (numericLines nums) (c : Int) rows values
        = some ((c : Int), rows + nums.length, values ++ concatRows nums) := by
  intro nums
  induction nums with
  | nil => intro rows values _; simp [numericLines, loadLoop, concatRows]
  | cons row rest ih =>
    intro rows values hall
    have hrow : row.length = c := hall row (List.mem_cons_self _ _)
    have hrest : ∀ r ∈ rest, r.length = c := fun r hr => hall r (List.mem_cons_of_mem _ hr)
    have hc : ¬ ((c : Int) = -1) := by omega
    have ih2 := ih (rows + 1) (values ++ row) hrest
    simp only [numericLines] at ih2 ⊢
    rw [List.map_cons, loadLoop, readRow_numeric]
    simp only [hc, if_false, hrow, ne_eq, not_true_eq_false]
    rw [ih2]
    simp only [concatRows, List.length_cons, List.append_assoc, Nat.cast_add, Nat.cast_one]
    have hsum : rows + 1 + (rest.length : Int) = rows + ((rest.length : Int) + 1) := by omega
    rw [hsum]

theorem loadLoop_first (nums : List (List Double)) (c : Nat) (hne : nums ≠ [])
    (hall : ∀ row ∈ nums, row.length = c) :
    loadLoop (numericLines nums) (-1) 0 []
      = some ((c : Int), (nums.length : Int), concatRows nums) := by
  cases nums with
  | nil => exact absurd rfl hne
  | cons row rest =>
    have hrow : row.length = c := hall row (List.mem_cons_self _ _)
    have hrest : ∀ r ∈ rest, r.length = c := fun r hr => hall r (List.mem_cons_of_mem _ hr)
    have h := loadLoop_uniform c rest (0 + 1) ([] ++ row) hrest
    simp only [numericLines] at h ⊢
    rw [List.map_cons, loadLoop, readRow_numeric]
    simp only [if_true, hrow]
    rw [h]
    simp only [concatRows, List.length_cons, List.nil_append, Nat.cast_add, Nat.cast_one]
    have hsum : (0 : Int) + 1 + (rest.length : Int) = (rest.length : Int) + 1 := by omega
    rw [hsum]

theorem concatRows_getD (c : Nat) :
    ∀ (nums : List (List Double)) (i j : Nat),
      (∀ row ∈ nums, row.length = c) → i < nums.length → j < c →
      (concatRows nums).getD (j + i * c) 0 = (nums.getD i []).getD j 0 := by
  intro nums
  induction nums with
  | nil => intro i j _ hi _; simp at hi
  | cons row rest ih =>
    intro i j hall hi hj
    have hrow : row.length = c := hall row (List.mem_cons_self _ _)
    have hrest : ∀ r ∈ rest, r.length = c := fun r hr => hall r (List.mem_cons_of_mem _ hr)
    cases i with
    | zero =>
      simp only [concatRows, Nat.zero_mul, Nat.add_zero]
      rw [List.getD_append _ _ _ _ (by omega)]
      rfl
    | succ i =>
      simp only [concatRows]
      rw [List.getD_append_right _ _ _ _ (by rw [hrow, Nat.succ_mul]; omega)]
      have hidx : j + (i + 1) * c - row.length = j + i * c := by
        rw [hrow, Nat.succ_mul]; omega
      rw [hidx, ih i j hrest (by simpa using hi) hj]
      rfl

theorem concatRows_length (c : Nat) :
    ∀ (nums : List (List Double)), (∀ row ∈ nums, row.length = c) →
      (concatRows nums).length = nums.length * c := by
  intro nums
  induction nums with
  | nil => intro _; simp [concatRows]
  | cons row rest ih =>
    intro hall
    have hrow : row.length = c := hall row (List.mem_cons_self _ _)
    have hrest : ∀ r ∈ rest, r.length = c := fun r hr => hall r (List.mem_cons_of_mem _ hr)
    simp only [concatRows, List.length_append, List.length_cons, hrow, ih hrest,
      Nat.succ_mul]
    omega

theorem blocks_length {β : Type} (f : Nat → Nat → β) (r : Nat) :
    ∀ c : Nat, ((List.range c).flatMap (fun j => (List.range r).map (fun i => f j i))).length
      = c * r := by
  intro c
  induction c with
  | zero => simp
  | succ c ih =>
    rw [List.range_succ, List.flatMap_append, List.length_append, ih]
    simp [Nat.succ_mul]

theorem blocks_getD (f : Nat → Nat → Double) (r : Nat) :
    ∀ (c i j : Nat), i < r → j < c →
      ((List.range c).flatMap (fun j => (List.range r).map (fun i => f j i))).getD
        (i + j * r) 0 = f j i := by
  intro c
  induction c with
  | zero => intro i j _ hj; omega
  | succ c ih =>
    intro i j hi hj
    rw [List.range_succ, List.flatMap_append]
    by_cases hjc : j < c
    · have hlt : i + j * r < c * r := by
        calc i + j * r < r + j * r := by omega
          _ = (j + 1) * r := by rw [Nat.succ_mul]; omega
          _ ≤ c * r := Nat.mul_le_mul_right r hjc
      rw [List.getD_append _ _ _ _ (by rw [blocks_length]; exact hlt)]
      exact ih i j hi hjc
    · have hjeq : j = c := by omega
      subst hjeq
      rw [List.getD_append_right _ _ _ _ (by rw [blocks_length]; omega), blocks_length]
      have hidx : i + j * r - j * r = i := by omega
      rw [hidx]
      simp [List.getD, hi]

theorem loadMatrixFromFile_uniform (fs : FileSystem) (filename : String) (mat : MatrixXd)
    (nums : List (List Double)) (c : Nat)
    (hopen : fs filename = some (numericLines nums)) (hne : nums ≠ [])
    (hc : ∀ row ∈ nums, row.length = c) :
    loadMatrixFromFile fs filename mat
      = (true, (Map (concatRows nums) (c : Int) (nums.length : Int)).transpose) := by
  unfold loadMatrixFromFile
  rw [hopen]
  simp only [loadLoop_first nums c hne hc]

theorem transpose_map_coeff (values : List Double) (r c i j : Nat) (hi : i < r)
    (hj : j < c) :
    (Map values (c : Int) (r : Int)).transpose.coeff i j = values.getD (j + i * c) 0 := by
  simp only [MatrixXd.transpose, Map, MatrixXd.coeff, Int.toNat_ofNat]
  have h1 : ((i : Int) + (j : Int) * (r : Int)).toNat = i + j * r := by
    have : ((i : Int) + (j : Int) * (r : Int)) = ((i + j * r : Nat) : Int) := by push_cast; rfl
    rw [this, Int.toNat_ofNat]
  rw [h1]
  rw [blocks_getD (fun j i => values.getD ((j : Int) + (i : Int) * (c : Int)).toNat 0)
    r c i j hi hj]
  have h2 : ((j : Int) + (i : Int) * (c : Int)).toNat = j + i * c := by
    have : ((j : Int) + (i : Int) * (c : Int)) = ((j + i * c : Nat) : Int) := by push_cast; rfl
    rw [this, Int.toNat_ofNat]
  rw [h2]

/-- C8: for an openable file of `r ≥ 1` lines that each hold exactly `c`
numbers, `loadMatrixFromFile` returns true and sets the matrix to the
`r`-by-`c` matrix (with `r * c` stored coefficients) whose entry `(i, j)` is
the `j`-th number of the `i`-th line. -/
theorem load_reads_rows_in_order (fs : FileSystem) (filename : String) (mat : MatrixXd)
    (nums : List (List Double)) (r c : Nat)
    (hopen : fs filename = some (numericLines nums)) (hr : nums.length = r)
    (hr1 : 1 ≤ r) (hc : ∀ row ∈ nums, row.length = c) :
    (loadMatrixFromFile fs filename mat).1 = true
    ∧ (loadMatrixFromFile fs filename mat).2.rows = (r : Int)
    ∧ (loadMatrixFromFile fs filename mat).2.cols = (c : Int)
    ∧ (loadMatrixFromFile fs filename mat).2.data.length = r * c
    ∧ ∀ i j : Nat, i < r → j < c →
        (loadMatrixFromFile fs filename mat).2.coeff i j = (nums.getD i []).getD j 0 := by
  have hne : nums ≠ [] := by
    intro h; rw [h] at hr; simp at hr; omega
  rw [loadMatrixFromFile_uniform fs filename mat nums c hopen hne hc, hr]
  refine ⟨rfl, rfl, rfl, ?_, ?_⟩
  · simp only [MatrixXd.transpose, Map, Int.toNat_ofNat]
    rw [blocks_length, Nat.mul_comm]
  · intro i j hi hj
    rw [transpose_map_coeff _ r c i j hi hj]
    exact concatRows_getD c nums i j hc (by omega) hj

/-- Witness of C8: the file of `sampleRows`, two lines of three numbers. -/
theorem load_reads_rows_in_order_witness :
    (loadMatrixFromFile sampleFiles "steady/u_0.dat" (Map [] 0 0)).1 = true
    ∧ (loadMatrixFromFile sampleFiles "steady/u_0.dat" (Map [] 0 0)).2.rows = ((2 : Nat) : Int)
    ∧ (loadMatrixFromFile sampleFiles "steady/u_0.dat" (Map [] 0 0)).2.cols = ((3 : Nat) : Int)
    ∧ (loadMatrixFromFile sampleFiles "steady/u_0.dat" (Map [] 0 0)).2.data.length = 2 * 3
    ∧ ∀ i j : Nat, i < 2 → j < 3 →
        (loadMatrixFromFile sampleFiles "steady/u_0.dat" (Map [] 0 0)).2.coeff i j
          = (sampleRows.getD i []).getD j 0 :=
  load_reads_rows_in_order sampleFiles "steady/u_0.dat" (Map [] 0 0) sampleRows 2 3 rfl rfl
    (by decide) (by decide)

/-! ## Loading the initial fields -/

theorem loadMatrixFromFile_unopened (fs : FileSystem) (filename : String) (mat : MatrixXd)
    (h : fs filename = none) : loadMatrixFromFile fs filename mat = (false, mat) := by
  simp only [loadMatrixFromFile, h]

theorem loadMatrixFromFile_ragged (fs : FileSystem) (filename : String) (mat : MatrixXd)
    (lines : List Line) (h : fs filename = some lines)
    (hl : loadLoop lines (-1) 0 [] = none) :
    loadMatrixFromFile fs filename mat = (false, mat) := by
  simp only [loadMatrixFromFile, h, hl]

theorem loadMatrixFromFile_read (fs : FileSystem) (filename : String) (mat : MatrixXd)
    (lines : List Line) (cols rows : Int) (values : List Double)
    (h : fs filename = some lines)
    (hl : loadLoop lines (-1) 0 [] = some (cols, rows, values)) :
    loadMatrixFromFile fs filename mat = (true, (Map values cols rows).transpose) := by
  simp only [loadMatrixFromFile, h, hl]

theorem loadMatrixFromFile_false_iff (fs : FileSystem) (filename : String) (mat : MatrixXd) :
    (loadMatrixFromFile fs filename mat).1 = false
      ↔ (fs filename = none
          ∨ ∃ lines, fs filename = some lines ∧ loadLoop lines (-1) 0 [] = none) := by
  cases hfs : fs filename with
  | none => rw [loadMatrixFromFile_unopened fs filename mat hfs]; simp
  | some lines =>
    cases hl : loadLoop lines (-1) 0 [] with
    | none => rw [loadMatrixFromFile_ragged fs filename mat lines hfs hl]; simp [hl]
    | some t =>
      obtain ⟨cols, rows, values⟩ := t
      rw [loadMatrixFromFile_read fs filename mat lines cols rows values hfs hl]
      simp [hl]

theorem loadMatrixFromFile_false_keeps (fs : FileSystem) (filename : String) (mat : MatrixXd)
    (h : (loadMatrixFromFile fs filename mat).1 = false) :
    (loadMatrixFromFile fs filename mat).2 = mat := by
  cases hfs : fs filename with
  | none => rw [loadMatrixFromFile_unopened fs filename mat hfs]
  | some lines =>
    cases hl : loadLoop lines (-1) 0 [] with
    | none => rw [loadMatrixFromFile_ragged fs filename mat lines hfs hl]
    | some t =>
      obtain ⟨cols, rows, values⟩ := t
      rw [loadMatrixFromFile_read fs filename mat lines cols rows values hfs hl] at h
      simp at h

theorem loadMatrixFromFile_flag_indep (fs : FileSystem) (filename : String)
    (mat mat2 : MatrixXd) :
    (loadMatrixFromFile fs filename mat).1 = (loadMatrixFromFile fs filename mat2).1 := by
  cases hfs : fs filename with
  | none =>
    rw [loadMatrixFromFile_unopened fs filename mat hfs,
      loadMatrixFromFile_unopened fs filename mat2 hfs]
  | some lines =>
    cases hl : loadLoop lines (-1) 0 [] with
    | none =>
      rw [loadMatrixFromFile_ragged fs filename mat lines hfs hl,
        loadMatrixFromFile_ragged fs filename mat2 lines hfs hl]
    | some t =>
      obtain ⟨cols, rows, values⟩ := t
      rw [loadMatrixFromFile_read fs filename mat lines cols rows values hfs hl,
        loadMatrixFromFile_read fs filename mat2 lines cols rows values hfs hl]

theorem loadMatrixFromFile_result_indep (fs : FileSystem) (filename : String)
    (mat mat2 : MatrixXd) (h : (loadMatrixFromFile fs filename mat).1 = true) :
    (loadMatrixFromFile fs filename mat).2 = (loadMatrixFromFile fs filename mat2).2 := by
  cases hfs : fs filename with
  | none => rw [loadMatrixFromFile_unopened fs filename mat hfs] at h; simp at h
  | some lines =>
    cases hl : loadLoop lines (-1) 0 [] with
    | none => rw [loadMatrixFromFile_ragged fs filename mat lines hfs hl] at h; simp at h
    | some t =>
      obtain ⟨cols, rows, values⟩ := t
      rw [loadMatrixFromFile_read fs filename mat lines cols rows values hfs hl,
        loadMatrixFromFile_read fs filename mat2 lines cols rows values hfs hl]

theorem setZero_all_zero (m : MatrixXd) :
    m.setZero.shape = m.shape ∧ ∀ x ∈ m.setZero.data, x = 0 := by
  refine ⟨rfl, ?_⟩
  intro x hx
  simp only [MatrixXd.setZero] at hx
  exact List.eq_of_mem_replicate hx

/-- C7: `loadMatrixFromFile` returns false exactly when the file cannot be
opened or a row has another length than the first, and then leaves the
matrix as it was; in the mesh with which the driver enters the time loop
every loaded field is the result of its own load applied to the zeroed field
(so the failure of another load does not affect it), a field whose load
fails is the all-zero matrix of its shape, and `p_star`, `p_prime` stay
zeroed. -/
theorem failed_load_keeps_zero (fs : FileSystem) (filename : String) (mat : MatrixXd)
    (mesh : Mesh) (rank : Int) :
    ((loadMatrixFromFile fs filename mat).1 = false
      ↔ (fs filename = none
          ∨ ∃ lines, fs filename = some lines ∧ loadLoop lines (-1) 0 [] = none))
    ∧ ((loadMatrixFromFile fs filename mat).1 = false →
        (loadMatrixFromFile fs filename mat).2 = mat)
    ∧ (mat.setZero.shape = mat.shape ∧ ∀ x ∈ mat.setZero.data, x = 0)
    ∧ ((initialMesh fs mesh rank).u0
          = (loadMatrixFromFile fs (steadyFile "u" rank) mesh.u0.setZero).2
      ∧ (initialMesh fs mesh rank).u
          = (loadMatrixFromFile fs (steadyFile "u" rank) mesh.u.setZero).2
      ∧ (initialMesh fs mesh rank).u_star
          = (loadMatrixFromFile fs (steadyFile "u" rank) mesh.u_star.setZero).2
      ∧ (initialMesh fs mesh rank).v0
          = (loadMatrixFromFile fs (steadyFile "v" rank) mesh.v0.setZero).2
      ∧ (initialMesh fs mesh rank).v
          = (loadMatrixFromFile fs (steadyFile "v" rank) mesh.v.setZero).2
      ∧ (initialMesh fs mesh rank).v_star
          = (loadMatrixFromFile fs (steadyFile "v" rank) mesh.v_star.setZero).2
      ∧ (initialMesh fs mesh rank).p
          = (loadMatrixFromFile fs (steadyFile "p" rank) mesh.p.setZero).2
      ∧ (initialMesh fs mesh rank).u_face
          = (loadMatrixFromFile fs (steadyFile "uf" rank) mesh.u_face.setZero).2
      ∧ (initialMesh fs mesh rank).v_face
          = (loadMatrixFromFile fs (steadyFile "vf" rank) mesh.v_face.setZero).2
      ∧ (initialMesh fs mesh rank).p_star = mesh.p_star.setZero
      ∧ (initialMesh fs mesh rank).p_prime = mesh.p_prime.setZero)
    ∧ ((loadMatrixFromFile fs (steadyFile "u" rank) mat).1 = false →
        (initialMesh fs mesh rank).u0 = mesh.u0.setZero
        ∧ (initialMesh fs mesh rank).u = mesh.u.setZero
        ∧ (initialMesh fs mesh rank).u_star = mesh.u_star.setZero)
    ∧ ((loadMatrixFromFile fs (steadyFile "v" rank) mat).1 = false →
        (initialMesh fs mesh rank).v0 = mesh.v0.setZero
        ∧ (initialMesh fs mesh rank).v = mesh.v.setZero
        ∧ (initialMesh fs mesh rank).v_star = mesh.v_star.setZero)
    ∧ ((loadMatrixFromFile fs (steadyFile "p" rank) mat).1 = false →
        (initialMesh fs mesh rank).p = mesh.p.setZero)
    ∧ ((loadMatrixFromFile fs (steadyFile "uf" rank) mat).1 = false →
        (initialMesh fs mesh rank).u_face = mesh.u_face.setZero)
    ∧ ((loadMatrixFromFile fs (steadyFile "vf" rank) mat).1 = false →
        (initialMesh fs mesh rank).v_face = mesh.v_face.setZero) := by
  have keep : ∀ (stem : String) (z : MatrixXd),
      (loadMatrixFromFile fs (steadyFile stem rank) mat).1 = false →
      (loadMatrixFromFile fs (steadyFile stem rank) z).2 = z := by
    intro stem z h
    apply loadMatrixFromFile_false_keeps
    rw [loadMatrixFromFile_flag_indep fs _ z mat]
    exact h
  refine ⟨loadMatrixFromFile_false_iff fs filename mat,
    loadMatrixFromFile_false_keeps fs filename mat, setZero_all_zero mat,
    ⟨rfl, rfl, rfl, rfl, rfl, rfl, rfl, rfl, rfl, rfl, rfl⟩, ?_, ?_, ?_, ?_, ?_⟩
  · intro h
    exact ⟨keep "u" _ h, keep "u" _ h, keep "u" _ h⟩
  · intro h
    exact ⟨keep "v" _ h, keep "v" _ h, keep "v" _ h⟩
  · intro h; exact keep "p" _ h
  · intro h; exact keep "uf" _ h
  · intro h; exact keep "vf" _ h

theorem loadMatrixFromFile_shape (fs : FileSystem) (filename : String) (mat : MatrixXd)
    (shape : Int × Int) (hold : mat.shape = shape)
    (hfile : (loadMatrixFromFile fs filename mat).1 = true →
      (loadMatrixFromFile fs filename mat).2.shape = shape) :
    (loadMatrixFromFile fs filename mat).2.shape = shape := by
  cases hflag : (loadMatrixFromFile fs filename mat).1 with
  | true => exact hfile hflag
  | false => rw [loadMatrixFromFile_false_keeps fs filename mat hflag]; exact hold

theorem sampleFiles_load (filename : String) (mat : MatrixXd) :
    loadMatrixFromFile sampleFiles filename mat
      = (true, (Map (concatRows sampleRows) 3 2).transpose) :=
  loadMatrixFromFile_uniform sampleFiles filename mat sampleRows 3 rfl (by decide)
    (by decide)

/-- Counterexample to C9 as stated: a mesh whose eleven arrays are 2-by-2,
loaded from files that hold a 2-by-3 table: after the call `u0` is 2-by-3,
not 2-by-2 as before, while `p_star` is still 2-by-2. -/
theorem load_changes_shape :
    (uniformMesh 2 2).u0.shape = (2, 2)
    ∧ (loadMeshDataFromSteady sampleFiles (uniformMesh 2 2) 0).u0.shape = (2, 3)
    ∧ (loadMeshDataFromSteady sampleFiles (uniformMesh 2 2) 0).p_star.shape = (2, 2) := by
  refine ⟨rfl, ?_, rfl⟩
  show (loadMatrixFromFile sampleFiles (steadyFile "u" 0) (uniformMesh 2 2).u0).2.shape = (2, 3)
  rw [sampleFiles_load]
  rfl

/-- C9 (amended): `loadMeshDataFromSteady` leaves `p_star` and `p_prime` as
they were and sets each of the other nine arrays to the result of its own
load, so an array keeps its shape when its load fails and takes the shape of
its file when the load succeeds; hence, when the eleven arrays share the
shape `ny`-by-`nx` before the call and every file that loads holds an
`ny`-by-`nx` matrix, the eleven arrays share that shape after the call. -/
theorem load_preserves_shape_of_matching_files (fs : FileSystem) (mesh : Mesh) (rank : Int)
    (ny nx : Int)
    (hmesh : ∀ f ∈ mesh.fields, f.shape = (ny, nx))
    (hfiles : ∀ stem ∈ ["u", "v", "p", "uf", "vf"], ∀ mat : MatrixXd,
      (loadMatrixFromFile fs (steadyFile stem rank) mat).1 = true →
      (loadMatrixFromFile fs (steadyFile stem rank) mat).2.shape = (ny, nx)) :
    (∀ f ∈ (loadMeshDataFromSteady fs mesh rank).fields, f.shape = (ny, nx))
    ∧ (loadMeshDataFromSteady fs mesh rank).p_star = mesh.p_star
    ∧ (loadMeshDataFromSteady fs mesh rank).p_prime = mesh.p_prime
    ∧ (loadMeshDataFromSteady fs mesh rank).u0
        = (loadMatrixFromFile fs (steadyFile "u" rank) mesh.u0).2
    ∧ (loadMeshDataFromSteady fs mesh rank).u
        = (loadMatrixFromFile fs (steadyFile "u" rank) mesh.u).2
    ∧ (loadMeshDataFromSteady fs mesh rank).u_star
        = (loadMatrixFromFile fs (steadyFile "u" rank) mesh.u_star).2
    ∧ (loadMeshDataFromSteady fs mesh rank).v0
        = (loadMatrixFromFile fs (steadyFile "v" rank) mesh.v0).2
    ∧ (loadMeshDataFromSteady fs mesh rank).v
        = (loadMatrixFromFile fs (steadyFile "v" rank) mesh.v).2
    ∧ (loadMeshDataFromSteady fs mesh rank).v_star
        = (loadMatrixFromFile fs (steadyFile "v" rank) mesh.v_star).2
    ∧ (loadMeshDataFromSteady fs mesh rank).p
        = (loadMatrixFromFile fs (steadyFile "p" rank) mesh.p).2
    ∧ (loadMeshDataFromSteady fs mesh rank).u_face
        = (loadMatrixFromFile fs (steadyFile "uf" rank) mesh.u_face).2
    ∧ (loadMeshDataFromSteady fs mesh rank).v_face
        = (loadMatrixFromFile fs (steadyFile "vf" rank) mesh.v_face).2 := by
  refine ⟨?_, rfl, rfl, rfl, rfl, rfl, rfl, rfl, rfl, rfl, rfl, rfl⟩
  have hm : ∀ f, f ∈ mesh.fields → f.shape = (ny, nx) := hmesh
  simp only [Mesh.fields, List.mem_cons, List.mem_singleton, List.not_mem_nil,
    or_false] at hm
  have hload : ∀ (stem : String) (mat : MatrixXd), stem ∈ ["u", "v", "p", "uf", "vf"] →
      mat.shape = (ny, nx) →
      (loadMatrixFromFile fs (steadyFile stem rank) mat).2.shape = (ny, nx) := by
    intro stem mat hstem hmat
    exact loadMatrixFromFile_shape fs _ mat (ny, nx) hmat (hfiles stem hstem mat)
  intro f hf
  simp only [Mesh.fields, List.mem_cons, List.mem_singleton, List.not_mem_nil,
    or_false] at hf
  rcases hf with h | h | h | h | h | h | h | h | h | h | h <;> rw [h]
  · exact hload "u" mesh.u (by decide) (hm _ (by simp))
  · exact hload "u" mesh.u0 (by decide) (hm _ (by simp))
  · exact hload "u" mesh.u_star (by decide) (hm _ (by simp))
  · exact hload "v" mesh.v (by decide) (hm _ (by simp))
  · exact hload "v" mesh.v0 (by decide) (hm _ (by simp))
  · exact hload "v" mesh.v_star (by decide) (hm _ (by simp))
  · exact hload "p" mesh.p (by decide) (hm _ (by simp))
  · exact hm mesh.p_star (by simp)
  · exact hm mesh.p_prime (by simp)
  · exact hload "uf" mesh.u_face (by decide) (hm _ (by simp))
  · exact hload "vf" mesh.v_face (by decide) (hm _ (by simp))

/-- Witness of C9 (amended): a mesh of 2-by-3 arrays loaded from files that
hold a 2-by-3 table. -/
theorem load_preserves_shape_of_matching_files_witness :
    (∀ f ∈ (uniformMesh 2 3).fields, f.shape = (2, 3))
    ∧ (∀ f ∈ (loadMeshDataFromSteady sampleFiles (uniformMesh 2 3) 0).fields,
        f.shape = (2, 3)) :=
  ⟨by intro f hf; simp [Mesh.fields, uniformMesh] at hf; rw [hf]; rfl,
   (load_preserves_shape_of_matching_files sampleFiles (uniformMesh 2 3) 0 2 3
      (by intro f hf; simp [Mesh.fields, uniformMesh] at hf; rw [hf]; rfl)
      (by intro stem _ mat _; rw [sampleFiles_load]; rfl)).1⟩

/-! ## The outer loop rank by rank -/

theorem rankLoopFrom_succ (max_outer_iterations : Nat) (res : Nat → Residuals)
    (reduced : Nat → Int) (fuel n : Nat) (init : InitNorms)
    (hn : n ≤ max_outer_iterations) :
    rankLoopFrom max_outer_iterations res reduced (fuel + 1) n init
      = if reduced n ≠ 0 then [(convergenceCheck n init (res n)).2.local_converged]
        else (convergenceCheck n init (res n)).2.local_converged
          :: rankLoopFrom max_outer_iterations res reduced fuel (n + 1)
              (convergenceCheck n init (res n)).1 := by
  rw [rankLoopFrom]
  simp [hn]

theorem rankLoopFrom_past_cap (max_outer_iterations : Nat) (res : Nat → Residuals)
    (reduced : Nat → Int) (fuel n : Nat) (init : InitNorms)
    (hn : ¬ n ≤ max_outer_iterations) :
    rankLoopFrom max_outer_iterations res reduced fuel n init = [] := by
  cases fuel with
  | zero => rfl
  | succ fuel => rw [rankLoopFrom]; simp [hn]

/-- The number of iterations a rank executes depends on the reduced flags and
the cap only, not on the rank's residuals or baselines. -/
theorem rankLoopFrom_length_common (max_outer_iterations : Nat) (res1 res2 : Nat → Residuals)
    (reduced : Nat → Int) :
    ∀ (fuel n : Nat) (init1 init2 : InitNorms),
      (rankLoopFrom max_outer_iterations res1 reduced fuel n init1).length
        = (rankLoopFrom max_outer_iterations res2 reduced fuel n init2).length := by
  intro fuel
  induction fuel with
  | zero => intro n init1 init2; rfl
  | succ fuel ih =>
    intro n init1 init2
    by_cases hn : n ≤ max_outer_iterations
    · rw [rankLoopFrom_succ _ _ _ _ _ _ hn,
        rankLoopFrom_succ _ _ _ _ _ _ hn]
      by_cases hg : reduced n ≠ 0
      · rw [if_pos hg, if_pos hg]; rfl
      · rw [if_neg hg, if_neg hg, List.length_cons, List.length_cons]
        exact congrArg Nat.succ (ih (n + 1) _ _)
    · rw [rankLoopFrom_past_cap _ _ _ _ _ _ hn, rankLoopFrom_past_cap _ _ _ _ _ _ hn]

/-- A rank that starts iteration `n` with enough fuel to reach the cap
executes at least one iteration, stops at the cap at the latest, sees the
reduced flag 0 in every iteration but its last, and stops before the cap only
on a non-zero reduced flag. -/
theorem rankLoopFrom_exit (max_outer_iterations : Nat) (res : Nat → Residuals)
    (reduced : Nat → Int) :
    ∀ (fuel n : Nat) (init : InitNorms),
      n ≤ max_outer_iterations → n + fuel = max_outer_iterations + 1 →
      1 ≤ (rankLoopFrom max_outer_iterations res reduced fuel n init).length
      ∧ n + (rankLoopFrom max_outer_iterations res reduced fuel n init).length
          ≤ max_outer_iterations + 1
      ∧ (∀ m, n ≤ m →
          m + 1 < n + (rankLoopFrom max_outer_iterations res reduced fuel n init).length →
          reduced m = 0)
      ∧ (n + (rankLoopFrom max_outer_iterations res reduced fuel n init).length
            < max_outer_iterations + 1 →
          reduced
            (n + (rankLoopFrom max_outer_iterations res reduced fuel n init).length - 1)
            ≠ 0) := by
  intro fuel
  induction fuel with
  | zero => intro n init hn hf; omega
  | succ fuel ih =>
    intro n init hn hf
    rw [rankLoopFrom_succ _ _ _ _ _ _ hn]
    by_cases hg : reduced n ≠ 0
    · rw [if_pos hg]
      simp only [List.length_singleton]
      refine ⟨le_refl 1, by omega, ?_, ?_⟩
      · intro m h1 h2; omega
      · intro _
        have : n + 1 - 1 = n := by omega
        rw [this]; exact hg
    · rw [if_neg hg]
      simp only [List.length_cons]
      have hg0 : reduced n = 0 := by
        by_contra h; exact hg h
      by_cases hn1 : n + 1 ≤ max_outer_iterations
      · obtain ⟨h1, h2, h3, h4⟩ := ih (n + 1) (convergenceCheck n init (res n)).1 hn1
          (by omega)
        refine ⟨by omega, by omega, ?_, ?_⟩
        · intro m hm1 hm2
          by_cases hmn : m = n
          · rw [hmn]; exact hg0
          · exact h3 m (by omega) (by omega)
        · intro hlt
          have hidx : n + ((rankLoopFrom max_outer_iterations res reduced fuel (n + 1)
              (convergenceCheck n init (res n)).1).length + 1) - 1
              = n + 1 + (rankLoopFrom max_outer_iterations res reduced fuel (n + 1)
              (convergenceCheck n init (res n)).1).length - 1 := by omega
          rw [hidx]
          exact h4 (by omega)
      · rw [rankLoopFrom_past_cap _ _ _ _ _ _ hn1]
        simp only [List.length_nil]
        refine ⟨by omega, by omega, ?_, ?_⟩
        · intro m hm1 hm2; omega
        · intro hlt; omega

theorem outerIteration_of_baseline (P n : Nat) (inits : Nat → InitNorms)
    (res : Nat → Nat → Residuals)
    (hinv : n = 1 ∨ (2 ≤ n ∧ ∀ q, inits q = baselineOf (res 1 q))) :
    (outerIteration P n inits (res n)).2.n = n
    ∧ (outerIteration P n inits (res n)).2.ranks
        = (List.range P).map (fun q => recordOf (res 1 q) (res n q))
    ∧ (outerIteration P n inits (res n)).2.global_converged = reducedFlag P res n
    ∧ (outerIteration P n inits (res n)).2.ranks.map (fun k => k.local_converged)
        = (List.range P).map (fun q => (recordOf (res 1 q) (res n q)).local_converged)
    ∧ ∀ q, (outerIteration P n inits (res n)).1 q = baselineOf (res 1 q) := by
  have hcc : ∀ q, convergenceCheck n (inits q) (res n q)
      = (baselineOf (res 1 q), recordOf (res 1 q) (res n q)) := by
    intro q
    rcases hinv with h1 | ⟨hn, hb⟩
    · subst h1; rw [convergenceCheck_first]
    · rw [hb q, convergenceCheck_later n (by omega)]
  have hranks : (outerIteration P n inits (res n)).2.ranks
      = (List.range P).map (fun q => recordOf (res 1 q) (res n q)) := by
    simp only [outerIteration]
    apply List.map_congr_left
    intro q _
    rw [hcc q]
  have hflags : (outerIteration P n inits (res n)).2.ranks.map (fun k => k.local_converged)
      = (List.range P).map (fun q => (recordOf (res 1 q) (res n q)).local_converged) := by
    rw [hranks, List.map_map]
    rfl
  refine ⟨rfl, hranks, ?_, hflags, ?_⟩
  · show MPI_Allreduce_MIN
        ((outerIteration P n inits (res n)).2.ranks.map (fun k => k.local_converged))
      = reducedFlag P res n
    rw [hflags]
    rfl
  · intro q
    simp only [outerIteration]
    rw [hcc q]

/-- Fed with the reduced flags of the time step, the loop of rank `r`
contributes in every iteration the flag that the lockstep run records for
it, and runs as many iterations. -/
theorem rankLoopFrom_matches_lockstep (max_outer_iterations P : Nat) (body : List Call)
    (res : Nat → Nat → Residuals) (r : Nat) (hr : r < P) :
    ∀ (fuel n : Nat) (inits : Nat → InitNorms) (init : InitNorms),
      (n = 1 ∨ (2 ≤ n ∧ (∀ q, inits q = baselineOf (res 1 q))
        ∧ init = baselineOf (res 1 r))) →
      (outerLoopFrom max_outer_iterations P body res fuel n inits).map
          (fun it => it.1.ranks[r]?.map (fun k => k.local_converged))
        = (rankLoopFrom max_outer_iterations (fun m => res m r) (reducedFlag P res)
            fuel n init).map some := by
  intro fuel
  induction fuel with
  | zero => intro n inits init _; rfl
  | succ fuel ih =>
    intro n inits init hinv
    have hinv2 : n = 1 ∨ (2 ≤ n ∧ ∀ q, inits q = baselineOf (res 1 q)) := by
      rcases hinv with h | ⟨h1, h2, _⟩
      · exact Or.inl h
      · exact Or.inr ⟨h1, h2⟩
    obtain ⟨_, hranks, _, hflags, hnext⟩ := outerIteration_of_baseline P n inits res hinv2
    have hmine : convergenceCheck n init (res n r)
        = (baselineOf (res 1 r), recordOf (res 1 r) (res n r)) := by
      rcases hinv with h1 | ⟨hn, _, hb⟩
      · subst h1; rw [convergenceCheck_first]
      · rw [hb, convergenceCheck_later n (by omega)]
    have hrec : (outerIteration P n inits (res n)).2.ranks[r]?.map
        (fun k => k.local_converged)
        = some (recordOf (res 1 r) (res n r)).local_converged := by
      rw [hranks]
      simp [hr]
    by_cases hn : n ≤ max_outer_iterations
    · rw [outerLoopFrom_step _ _ _ _ _ _ _ (Nat.succ_pos fuel) hn,
        rankLoopFrom_succ _ _ _ _ _ _ hn, hflags]
      have hbrk : loopBreaks ((List.range P).map
          (fun q => (recordOf (res 1 q) (res n q)).local_converged)) = true
          ↔ reducedFlag P res n ≠ 0 := by
        simp [loopBreaks, reducedFlag]
      by_cases hg : reducedFlag P res n ≠ 0
      · rw [if_pos (hbrk.mpr hg), if_pos hg]
        simp only [List.map_cons, List.map_nil, hrec, hmine]
      · rw [if_neg (fun h => hg (hbrk.mp h)), if_neg hg]
        simp only [List.map_cons, hrec, hmine, Nat.succ_sub_one]
        rw [ih (n + 1) _ (baselineOf (res 1 r)) (Or.inr ⟨by omega, hnext, rfl⟩)]
    · rw [rankLoopFrom_past_cap _ _ _ _ _ _ hn]
      simp [outerLoopFrom, hn]

theorem outerLoopFrom_global_flag (max_outer_iterations P : Nat) (body : List Call)
    (res : Nat → Nat → Residuals) :
    ∀ (fuel n : Nat) (inits : Nat → InitNorms),
      (n = 1 ∨ (2 ≤ n ∧ ∀ q, inits q = baselineOf (res 1 q))) →
      ∀ it ∈ outerLoopFrom max_outer_iterations P body res fuel n inits,
        it.1.global_converged = reducedFlag P res it.1.n ∧ it.1.ranks.length = P := by
  intro fuel
  induction fuel with
  | zero => intro n inits _ it hit; simp [outerLoopFrom] at hit
  | succ fuel ih =>
    intro n inits hinv it hit
    obtain ⟨hn1, hranks, hglob, _, hnext⟩ := outerIteration_of_baseline P n inits res hinv
    have hlen : (outerIteration P n inits (res n)).2.ranks.length = P := by
      rw [hranks]; simp
    by_cases hn : n ≤ max_outer_iterations
    · rw [outerLoopFrom_step _ _ _ _ _ _ _ (Nat.succ_pos fuel) hn] at hit
      split at hit
      · rw [List.mem_singleton] at hit
        rw [hit]
        exact ⟨by rw [hglob, hn1], hlen⟩
      · rcases List.mem_cons.mp hit with h | h
        · rw [h]
          exact ⟨by rw [hglob, hn1], hlen⟩
        · exact ih (n + 1) _ (Or.inr ⟨by omega, hnext⟩) it h
    · simp [outerLoopFrom, hn] at hit

/-- C11: within one time step, for ranks `r` and `s` of the `P` processes and
a cap of at least 1 (100 in the steady driver, 30 in the unsteady one):
whatever values the all-reduce hands back, identical on all ranks, the two
ranks execute the same number of outer iterations, at least 1 and at most
`max_outer_iterations`; a rank sees the reduced flag 0 in every iteration
before its last and leaves before the cap only on a non-zero reduced flag.
With the `MPI_MIN` reduction of the flags the ranks compute from their own
residuals, every rank runs exactly the iterations of the lockstep run,
contributing the flags recorded there, and every recorded iteration holds
one record per rank and the reduced flag as `global_converged`. -/
theorem ranks_run_same_iterations (max_outer_iterations P : Nat) (body : List Call)
    (res : Nat → Nat → Residuals) (reduced : Nat → Int) (r s : Nat)
    (hmax : 1 ≤ max_outer_iterations) (hr : r < P) (hs : s < P) :
    (rankLoop max_outer_iterations (fun m => res m r) reduced).length
        = (rankLoop max_outer_iterations (fun m => res m s) reduced).length
    ∧ 1 ≤ (rankLoop max_outer_iterations (fun m => res m r) reduced).length
    ∧ (rankLoop max_outer_iterations (fun m => res m r) reduced).length
        ≤ max_outer_iterations
    ∧ (∀ m, 1 ≤ m →
        m < (rankLoop max_outer_iterations (fun m => res m r) reduced).length →
        reduced m = 0)
    ∧ ((rankLoop max_outer_iterations (fun m => res m r) reduced).length
          < max_outer_iterations →
        reduced (rankLoop max_outer_iterations (fun m => res m r) reduced).length ≠ 0)
    ∧ (outerLoop max_outer_iterations P body res).map
          (fun it => it.1.ranks[r]?.map (fun k => k.local_converged))
        = (rankLoop max_outer_iterations (fun m => res m r) (reducedFlag P res)).map some
    ∧ (rankLoop max_outer_iterations (fun m => res m r) (reducedFlag P res)).length
        = (outerLoop max_outer_iterations P body res).length
    ∧ (rankLoop max_outer_iterations (fun m => res m s) (reducedFlag P res)).length
        = (outerLoop max_outer_iterations P body res).length
    ∧ 1 ≤ (outerLoop max_outer_iterations P body res).length
    ∧ (outerLoop max_outer_iterations P body res).length ≤ max_outer_iterations
    ∧ ∀ it ∈ outerLoop max_outer_iterations P body res,
        it.1.global_converged = reducedFlag P res it.1.n ∧ it.1.ranks.length = P := by
  have hexit := rankLoopFrom_exit max_outer_iterations (fun m => res m r) reduced
    max_outer_iterations 1 InitNorms.start hmax (by omega)
  obtain ⟨h1, h2, h3, h4⟩ := hexit
  have hmatch : ∀ q, q < P →
      (outerLoop max_outer_iterations P body res).map
          (fun it => it.1.ranks[q]?.map (fun k => k.local_converged))
        = (rankLoop max_outer_iterations (fun m => res m q) (reducedFlag P res)).map some :=
    fun q hq => rankLoopFrom_matches_lockstep max_outer_iterations P body res q hq
      max_outer_iterations 1 (fun _ => InitNorms.start) InitNorms.start (Or.inl rfl)
  have hlen : ∀ q, q < P →
      (rankLoop max_outer_iterations (fun m => res m q) (reducedFlag P res)).length
        = (outerLoop max_outer_iterations P body res).length := by
    intro q hq
    have h := congrArg List.length (hmatch q hq)
    simp only [List.length_map] at h
    exact h.symm
  have hexit2 := rankLoopFrom_exit max_outer_iterations (fun m => res m r)
    (reducedFlag P res) max_outer_iterations 1 InitNorms.start hmax (by omega)
  have hlr := hlen r hr
  unfold rankLoop at hlr ⊢
  refine ⟨rankLoopFrom_length_common _ _ _ _ _ _ _ _, h1, by omega, ?_, ?_, hmatch r hr,
    hlr, hlen s hs, ?_, ?_, ?_⟩
  · intro m hm1 hm2
    exact h3 m hm1 (by omega)
  · intro hlt
    have h := h4 (by omega)
    have hidx : 1 + (rankLoopFrom max_outer_iterations (fun m => res m r) reduced
        max_outer_iterations 1 InitNorms.start).length - 1
        = (rankLoopFrom max_outer_iterations (fun m => res m r) reduced
        max_outer_iterations 1 InitNorms.start).length := by omega
    rw [hidx] at h
    exact h
  · rw [← hlr]; exact hexit2.1
  · rw [← hlr]; have := hexit2.2.1; omega
  · exact outerLoopFrom_global_flag max_outer_iterations P body res max_outer_iterations 1
      (fun _ => InitNorms.start) (Or.inl rfl)

/-- Witness of C11: ranks 0 and 1 of two processes in the steady driver's
loop, with the reduced flags of a residual history that drops to zero. -/
theorem ranks_run_same_iterations_witness :
    1 ≤ 100 ∧ 0 < 2 ∧ 1 < 2
    ∧ (rankLoop 100 (fun m => dropToZero m 0) (reducedFlag 2 dropToZero)).length
        = (rankLoop 100 (fun m => dropToZero m 1) (reducedFlag 2 dropToZero)).length
    ∧ 1 ≤ (rankLoop 100 (fun m => dropToZero m 0) (reducedFlag 2 dropToZero)).length
    ∧ (rankLoop 100 (fun m => dropToZero m 0) (reducedFlag 2 dropToZero)).length ≤ 100 :=
  ⟨by decide, by decide, by decide,
   (ranks_run_same_iterations 100 2 (steadyOuterBody 0 0 0 0) dropToZero
      (reducedFlag 2 dropToZero) 0 1 (by decide) (by decide) (by decide)).1,
   (ranks_run_same_iterations 100 2 (steadyOuterBody 0 0 0 0) dropToZero
      (reducedFlag 2 dropToZero) 0 1 (by decide) (by decide) (by decide)).2.1,
   (ranks_run_same_iterations 100 2 (steadyOuterBody 0 0 0 0) dropToZero
      (reducedFlag 2 dropToZero) 0 1 (by decide) (by decide) (by decide)).2.2.1⟩

/-! ## The first outer iteration of a time step -/

theorem norm_res_self (x : Double) :
    norm_res x x = if x > 1 / 10 ^ 200 then 1 else 0 := by
  unfold norm_res
  by_cases h : x > 1 / 10 ^ 200
  · rw [if_pos h, if_pos h]
    have hpos : (0 : Double) < 1 / 10 ^ 200 := by positivity
    exact div_self (ne_of_gt (lt_trans hpos h))
  · rw [if_neg h, if_neg h]

theorem norm_res_self_lt_iff (x tol : Double) (h0 : 0 < tol) (h1 : tol ≤ 1) :
    norm_res x x < tol ↔ x ≤ 1 / 10 ^ 200 := by
  rw [norm_res_self]
  by_cases h : x > 1 / 10 ^ 200
  · rw [if_pos h]
    constructor
    · intro hlt; exact absurd (lt_of_lt_of_le hlt h1) (lt_irrefl 1)
    · intro hle; exact absurd h (not_lt.mpr hle)
  · rw [if_neg h]
    exact ⟨fun _ => not_lt.mp h, fun _ => h0⟩

theorem convergenceCheck_first_record (init : InitNorms) (r : Residuals) :
    (convergenceCheck 1 init r).2
      = ⟨norm_res r.l2_norm_x r.l2_norm_x, norm_res r.l2_norm_y r.l2_norm_y,
         norm_res r.l2_norm_p r.l2_norm_p,
         local_converged (norm_res r.l2_norm_x r.l2_norm_x)
           (norm_res r.l2_norm_y r.l2_norm_y) (norm_res r.l2_norm_p r.l2_norm_p)⟩ := by
  simp [convergenceCheck, recordInitial]

theorem first_flag_eq_one_iff (init : InitNorms) (r : Residuals) :
    (convergenceCheck 1 init r).2.local_converged = 1
      ↔ (r.l2_norm_x ≤ 1 / 10 ^ 200 ∧ r.l2_norm_y ≤ 1 / 10 ^ 200
          ∧ r.l2_norm_p ≤ 1 / 10 ^ 200) := by
  rw [convergenceCheck_first_record]
  simp only
  rw [local_converged_eq_one,
    norm_res_self_lt_iff _ (1 / 10) (by norm_num) (by norm_num),
    norm_res_self_lt_iff _ (1 / 10) (by norm_num) (by norm_num),
    norm_res_self_lt_iff _ (1 / 1000) (by norm_num) (by norm_num)]

theorem first_flag_zero_or_one (init : InitNorms) (r : Residuals) :
    (convergenceCheck 1 init r).2.local_converged = 0
      ∨ (convergenceCheck 1 init r).2.local_converged = 1 := by
  rw [convergenceCheck_first_record]
  exact local_converged_zero_or_one _ _ _

theorem first_flag_eq_zero (init : InitNorms) (r : Residuals)
    (h : r.l2_norm_x > 1 / 10 ^ 200 ∨ r.l2_norm_y > 1 / 10 ^ 200
      ∨ r.l2_norm_p > 1 / 10 ^ 200) :
    (convergenceCheck 1 init r).2.local_converged = 0 := by
  rcases first_flag_zero_or_one init r with h0 | h1
  · exact h0
  · rw [first_flag_eq_one_iff] at h1
    obtain ⟨hx, hy, hp⟩ := h1
    rcases h with h | h | h
    · exact absurd h (not_lt.mpr hx)
    · exact absurd h (not_lt.mpr hy)
    · exact absurd h (not_lt.mpr hp)

/-- A time step in which some rank gets a residual above `1e-200` in the
first iteration goes on to a second iteration when the cap allows. -/
theorem outerLoop_second_iteration (max_outer_iterations P : Nat) (body : List Call)
    (res : Nat → Nat → Residuals) (hmax : 2 ≤ max_outer_iterations) (q : Nat) (hq : q < P)
    (h : (res 1 q).l2_norm_x > 1 / 10 ^ 200 ∨ (res 1 q).l2_norm_y > 1 / 10 ^ 200
      ∨ (res 1 q).l2_norm_p > 1 / 10 ^ 200) :
    2 ≤ (outerLoop max_outer_iterations P body res).length := by
  have hflag : (0 : Int) ∈ (outerIteration P 1 (fun _ => InitNorms.start) (res 1)).2.ranks.map
      (fun k => k.local_converged) := by
    simp only [outerIteration, List.map_map, List.mem_map, List.mem_range, Function.comp]
    exact ⟨q, hq, first_flag_eq_zero _ _ h⟩
  have hnot : ¬ loopBreaks ((outerIteration P 1 (fun _ => InitNorms.start) (res 1)).2.ranks.map
      (fun k => k.local_converged)) = true := by
    intro hb
    have hne : MPI_Allreduce_MIN ((outerIteration P 1 (fun _ => InitNorms.start)
        (res 1)).2.ranks.map (fun k => k.local_converged)) ≠ 0 := by
      simpa [loopBreaks] using hb
    have hall := (allreduceMin_flags_ne_zero _
      (outerIteration_flags_ne_nil P 1 (by omega) _ _)
      (outerIteration_flags_zero_or_one P 1 _ _)).mp hne
    have := hall 0 hflag
    omega
  unfold outerLoop
  rw [outerLoopFrom_step _ _ _ _ _ _ _ (by omega) (by omega), if_neg hnot,
    List.length_cons,
    outerLoopFrom_step _ _ _ _ _ _ _ (by omega) (by omega)]
  split <;> simp

/-- Over finite values: in the first outer iteration the local flag of a
rank is 1 exactly when its three residuals are all at most `1e-200`, a
residual above `1e-200` has normalized residual 1 and makes the flag 0, the
first record of the loop is that of iteration 1, and a rank with a residual
above `1e-200` forces a second iteration when the cap is at least 2. -/
theorem first_iteration_rational (init : InitNorms) (r : Residuals)
    (max_outer_iterations P : Nat) (body : List Call) (res : Nat → Nat → Residuals)
    (q : Nat) :
    ((convergenceCheck 1 init r).2.local_converged = 1
      ↔ (r.l2_norm_x ≤ 1 / 10 ^ 200 ∧ r.l2_norm_y ≤ 1 / 10 ^ 200
          ∧ r.l2_norm_p ≤ 1 / 10 ^ 200))
    ∧ (r.l2_norm_x > 1 / 10 ^ 200 →
        (convergenceCheck 1 init r).2.norm_res_x = 1
        ∧ (convergenceCheck 1 init r).2.local_converged = 0)
    ∧ (r.l2_norm_y > 1 / 10 ^ 200 →
        (convergenceCheck 1 init r).2.norm_res_y = 1
        ∧ (convergenceCheck 1 init r).2.local_converged = 0)
    ∧ (r.l2_norm_p > 1 / 10 ^ 200 →
        (convergenceCheck 1 init r).2.norm_res_p = 1
        ∧ (convergenceCheck 1 init r).2.local_converged = 0)
    ∧ (1 ≤ max_outer_iterations →
        (outerLoop max_outer_iterations P body res).head?.map
            (fun it => (it.1.n, it.1.ranks))
          = some (1, (List.range P).map
              (fun k => (convergenceCheck 1 InitNorms.start (res 1 k)).2)))
    ∧ (2 ≤ max_outer_iterations → q < P →
        ((res 1 q).l2_norm_x > 1 / 10 ^ 200 ∨ (res 1 q).l2_norm_y > 1 / 10 ^ 200
          ∨ (res 1 q).l2_norm_p > 1 / 10 ^ 200) →
        2 ≤ (outerLoop max_outer_iterations P body res).length) := by
  refine ⟨first_flag_eq_one_iff init r, ?_, ?_, ?_, ?_, ?_⟩
  · intro h
    refine ⟨?_, first_flag_eq_zero init r (Or.inl h)⟩
    rw [convergenceCheck_first_record]
    simp only
    rw [norm_res_self, if_pos h]
  · intro h
    refine ⟨?_, first_flag_eq_zero init r (Or.inr (Or.inl h))⟩
    rw [convergenceCheck_first_record]
    simp only
    rw [norm_res_self, if_pos h]
  · intro h
    refine ⟨?_, first_flag_eq_zero init r (Or.inr (Or.inr h))⟩
    rw [convergenceCheck_first_record]
    simp only
    rw [norm_res_self, if_pos h]
  · intro hmax
    have hh := outerLoop_head max_outer_iterations P body res hmax
    rw [Option.map_eq_some'] at hh ⊢
    obtain ⟨it, hit, hrec⟩ := hh
    refine ⟨it, hit, ?_⟩
    rw [hrec]
    rfl
  · intro hmax hq h
    exact outerLoop_second_iteration max_outer_iterations P body res hmax q hq h

theorem norm_resIEEE_finite (a b : Double) :
    norm_resIEEE (IEEEDouble.finite a) (IEEEDouble.finite b)
      = IEEEDouble.finite (norm_res a b) := by
  unfold norm_resIEEE norm_res
  by_cases h : a > 1 / 10 ^ 200
  · have hpos : (0 : Double) < 1 / 10 ^ 200 := by positivity
    have ha : a ≠ 0 := ne_of_gt (lt_trans hpos h)
    have hlt : (1 : Double) / 10 ^ 200 < a := h
    simp only [IEEEDouble.gt, IEEEDouble.lt, hlt, decide_True, if_true, IEEEDouble.div, ha,
      if_false, h]
  · have hlt : ¬ ((1 : Double) / 10 ^ 200 < a) := h
    simp only [IEEEDouble.gt, IEEEDouble.lt, hlt, decide_False, Bool.false_eq_true, if_false,
      h]

theorem local_convergedIEEE_finite (x y p : Double) :
    local_convergedIEEE (IEEEDouble.finite x) (IEEEDouble.finite y) (IEEEDouble.finite p)
      = local_converged x y p := by
  simp only [local_convergedIEEE, local_converged, IEEEDouble.lt]

/-- On finite residuals the first iteration computes the same record with
and without the special values, whatever the baselines held before. -/
theorem convergenceCheckIEEE_first_finite (init : InitNormsIEEE) (initQ : InitNorms)
    (r : Residuals) :
    (convergenceCheckIEEE 1 init r.toIEEE).2 = (convergenceCheck 1 initQ r).2.toIEEE := by
  simp only [convergenceCheckIEEE, recordInitialIEEE, convergenceCheck, recordInitial,
    Residuals.toIEEE, RankRecord.toIEEE, if_true, norm_resIEEE_finite,
    local_convergedIEEE_finite]

/-- Counterexample to C12 as stated: when the three residuals of the first
iteration are NaN, the guard `init > 1e-200` is false for each, every
normalized residual is `0.0` and the flag is 1, although NaN is not at most
`1e-200`; and a residual `+inf`, which does exceed `1e-200`, has the
normalized residual `inf / inf`, NaN, not 1. -/
theorem first_iteration_flag_fails_for_nan :
    (convergenceCheckIEEE 1 InitNormsIEEE.start
        ⟨IEEEDouble.nan, IEEEDouble.nan, IEEEDouble.nan⟩).2
      = ⟨IEEEDouble.finite 0, IEEEDouble.finite 0, IEEEDouble.finite 0, 1⟩
    ∧ IEEEDouble.le IEEEDouble.nan (IEEEDouble.finite (1 / 10 ^ 200)) = false
    ∧ IEEEDouble.gt IEEEDouble.posInf (IEEEDouble.finite (1 / 10 ^ 200)) = true
    ∧ (convergenceCheckIEEE 1 InitNormsIEEE.start
        ⟨IEEEDouble.posInf, IEEEDouble.finite 0, IEEEDouble.finite 0⟩).2.norm_res_x
      = IEEEDouble.nan := by
  refine ⟨?_, rfl, rfl, ?_⟩
  · simp only [convergenceCheckIEEE, recordInitialIEEE, if_true, norm_resIEEE,
      IEEEDouble.gt, IEEEDouble.lt, Bool.false_eq_true, if_false, local_convergedIEEE]
    norm_num
  · simp only [convergenceCheckIEEE, recordInitialIEEE, if_true, norm_resIEEE,
      IEEEDouble.gt, IEEEDouble.lt, IEEEDouble.div]

/-- C12 (amended): in the first outer iteration (`n = 1`) of a time step,
for residuals that are finite numbers (neither NaN nor infinite) and
whatever the baselines held before: the record computed on doubles with
special values is the one computed on the finite values; the local flag is 1
exactly when the three residuals are all at most `1e-200`; a residual above
`1e-200` has normalized residual exactly 1 and makes the flag 0; the first
record of the loop is that of iteration 1 on every rank; and when some rank
`q` has a residual above `1e-200` and the cap is at least 2, the time step
performs at least two outer iterations. -/
theorem first_iteration_flag_finite (init : InitNormsIEEE) (initQ : InitNorms)
    (r : Residuals) (max_outer_iterations P : Nat) (body : List Call)
    (res : Nat → Nat → Residuals) (q : Nat) :
    (convergenceCheckIEEE 1 init r.toIEEE).2 = (convergenceCheck 1 initQ r).2.toIEEE
    ∧ ((convergenceCheckIEEE 1 init r.toIEEE).2.local_converged = 1
      ↔ (r.l2_norm_x ≤ 1 / 10 ^ 200 ∧ r.l2_norm_y ≤ 1 / 10 ^ 200
          ∧ r.l2_norm_p ≤ 1 / 10 ^ 200))
    ∧ (r.l2_norm_x > 1 / 10 ^ 200 →
        (convergenceCheckIEEE 1 init r.toIEEE).2.norm_res_x = IEEEDouble.finite 1
        ∧ (convergenceCheckIEEE 1 init r.toIEEE).2.local_converged = 0)
    ∧ (r.l2_norm_y > 1 / 10 ^ 200 →
        (convergenceCheckIEEE 1 init r.toIEEE).2.norm_res_y = IEEEDouble.finite 1
        ∧ (convergenceCheckIEEE 1 init r.toIEEE).2.local_converged = 0)
    ∧ (r.l2_norm_p > 1 / 10 ^ 200 →
        (convergenceCheckIEEE 1 init r.toIEEE).2.norm_res_p = IEEEDouble.finite 1
        ∧ (convergenceCheckIEEE 1 init r.toIEEE).2.local_converged = 0)
    ∧ (1 ≤ max_outer_iterations →
        (outerLoop max_outer_iterations P body res).head?.map
            (fun it => (it.1.n, it.1.ranks))
          = some (1, (List.range P).map
              (fun k => (convergenceCheck 1 InitNorms.start (res 1 k)).2)))
    ∧ (2 ≤ max_outer_iterations → q < P →
        ((res 1 q).l2_norm_x > 1 / 10 ^ 200 ∨ (res 1 q).l2_norm_y > 1 / 10 ^ 200
          ∨ (res 1 q).l2_norm_p > 1 / 10 ^ 200) →
        2 ≤ (outerLoop max_outer_iterations P body res).length) := by
  have hag := convergenceCheckIEEE_first_finite init initQ r
  obtain ⟨h1, h2, h3, h4, h5, h6⟩ :=
    first_iteration_rational initQ r max_outer_iterations P body res q
  rw [hag]
  refine ⟨rfl, h1, ?_, ?_, ?_, h5, h6⟩
  · intro h
    exact ⟨congrArg IEEEDouble.finite (h2 h).1, (h2 h).2⟩
  · intro h
    exact ⟨congrArg IEEEDouble.finite (h3 h).1, (h3 h).2⟩
  · intro h
    exact ⟨congrArg IEEEDouble.finite (h4 h).1, (h4 h).2⟩

/-- Witness of C12 (amended): residuals `(1, 1, 1)` in the first iteration,
on rank 0 of two processes in the unsteady driver's loop of cap 30. -/
theorem first_iteration_flag_finite_witness :
    (dropToZero 1 0).l2_norm_x > 1 / 10 ^ 200
    ∧ ((convergenceCheckIEEE 1 InitNormsIEEE.start (dropToZero 1 0).toIEEE).2.norm_res_x
        = IEEEDouble.finite 1
      ∧ (convergenceCheckIEEE 1 InitNormsIEEE.start
          (dropToZero 1 0).toIEEE).2.local_converged = 0)
    ∧ 2 ≤ (outerLoop 30 2 (unsteadyOuterBody 0 0 0 0) dropToZero).length :=
  ⟨by norm_num [dropToZero],
   (first_iteration_flag_finite InitNormsIEEE.start InitNorms.start (dropToZero 1 0) 30 2
      (unsteadyOuterBody 0 0 0 0) dropToZero 0).2.2.1 (by norm_num [dropToZero]),
   (first_iteration_flag_finite InitNormsIEEE.start InitNorms.start (dropToZero 1 0) 30 2
      (unsteadyOuterBody 0 0 0 0) dropToZero 0).2.2.2.2.2.2 (by decide) (by decide)
      (Or.inl (by norm_num [dropToZero]))⟩

/-! ## The number of time steps -/

theorem timeStepsEntered_append (l1 l2 : List Call) :
    timeStepsEntered (l1 ++ l2) = timeStepsEntered l1 ++ timeStepsEntered l2 := by
  simp [timeStepsEntered, List.filterMap_append]

theorem timeStepsCompleted_append (l1 l2 : List Call) :
    timeStepsCompleted (l1 ++ l2) = timeStepsCompleted l1 + timeStepsCompleted l2 := by
  simp [timeStepsCompleted, List.count_append]

theorem timeStepsEntered_eq_nil (l : List Call)
    (h : ∀ c ∈ l, ∀ i, c ≠ Call.beginTimeStep i) : timeStepsEntered l = [] := by
  induction l with
  | nil => rfl
  | cons c t ih =>
    have hc := h c (List.mem_cons_self _ _)
    have ht := ih (fun x hx => h x (List.mem_cons_of_mem _ hx))
    unfold timeStepsEntered at ht ⊢
    rw [List.filterMap_cons]
    cases c <;> simp_all

theorem timeStepsCompleted_eq_zero (l : List Call)
    (h : Call.assign FieldId.u0 FieldId.u_star ∉ l) : timeStepsCompleted l = 0 := by
  unfold timeStepsCompleted
  exact List.count_eq_zero.mpr h

theorem outerLoop_calls_no_marker (max_outer_iterations P : Nat) (body : List Call)
    (res : Nat → Nat → Residuals)
    (hb1 : ∀ c ∈ body, ∀ i, c ≠ Call.beginTimeStep i)
    (hb2 : Call.assign FieldId.u0 FieldId.u_star ∉ body) :
    timeStepsEntered ((outerLoop max_outer_iterations P body res).flatMap (fun it => it.2))
        = []
    ∧ timeStepsCompleted
        ((outerLoop max_outer_iterations P body res).flatMap (fun it => it.2)) = 0 := by
  constructor
  · apply timeStepsEntered_eq_nil
    intro c hc i
    rcases outerLoop_call_mem _ _ _ _ c hc with h | h
    · exact hb1 c h i
    · rw [h]; simp
  · apply timeStepsCompleted_eq_zero
    intro hc
    rcases outerLoop_call_mem _ _ _ _ _ hc with h | h
    · exact hb2 h
    · cases h

theorem steadyOuterBody_no_marker (mu dt alpha_uv alpha_p : Double) :
    (∀ c ∈ steadyOuterBody mu dt alpha_uv alpha_p, ∀ i, c ≠ Call.beginTimeStep i)
    ∧ Call.assign FieldId.u0 FieldId.u_star ∉ steadyOuterBody mu dt alpha_uv alpha_p := by
  constructor
  · intro c hc i h
    subst h
    simp [steadyOuterBody] at hc
  · simp [steadyOuterBody]

theorem unsteadyOuterBody_no_marker (mu dt alpha_uv alpha_p : Double) :
    (∀ c ∈ unsteadyOuterBody mu dt alpha_uv alpha_p, ∀ i, c ≠ Call.beginTimeStep i)
    ∧ Call.assign FieldId.u0 FieldId.u_star ∉ unsteadyOuterBody mu dt alpha_uv alpha_p := by
  constructor
  · intro c hc i h
    subst h
    simp [unsteadyOuterBody] at hc
  · simp [unsteadyOuterBody]

theorem wrapInt32_of_range (x : Int) (h1 : -2147483648 ≤ x) (h2 : x ≤ 2147483647) :
    wrapInt32 x = x := by
  unfold wrapInt32
  omega

theorem wrapInt32_range (x : Int) :
    -2147483648 ≤ wrapInt32 x ∧ wrapInt32 x ≤ 2147483647 := by
  unfold wrapInt32
  omega

theorem steadyTimeStep_counts (P : Nat) (mu dt : Double)
    (res : Int → Nat → Nat → Residuals) (i : Int) (d : Driver) :
    timeStepsEntered (steadyTimeStep P mu dt res i d).log = timeStepsEntered d.log ++ [i]
    ∧ timeStepsCompleted (steadyTimeStep P mu dt res i d).log
        = timeStepsCompleted d.log + 1
    ∧ (steadyTimeStep P mu dt res i d).inter = wrapInt32 (d.inter + 1) := by
  have hb := steadyOuterBody_no_marker mu dt
    (computeMomentumRelaxationFactor (wrapInt32 (d.inter + 1))) d.alpha_p
  have ho := outerLoop_calls_no_marker 100 P _ (res i) hb.1 hb.2
  simp only [steadyTimeStep, timeStepsEntered_append, timeStepsCompleted_append, ho.1, ho.2]
  refine ⟨?_, ?_, trivial⟩
  · simp [timeStepsEntered]
  · simp [timeStepsCompleted]

theorem unsteadyTimeStep_counts (P : Nat) (mu dt : Double)
    (res : Int → Nat → Nat → Residuals) (i : Int) (d : Driver) :
    timeStepsEntered (unsteadyTimeStep P mu dt res i d).log = timeStepsEntered d.log ++ [i]
    ∧ timeStepsCompleted (unsteadyTimeStep P mu dt res i d).log
        = timeStepsCompleted d.log + 1
    ∧ (unsteadyTimeStep P mu dt res i d).inter = wrapInt32 (d.inter + 1) := by
  have hb := unsteadyOuterBody_no_marker mu dt d.alpha_uv d.alpha_p
  have ho := outerLoop_calls_no_marker 30 P _ (res i) hb.1 hb.2
  simp only [unsteadyTimeStep, timeStepsEntered_append, timeStepsCompleted_append, ho.1,
    ho.2]
  refine ⟨?_, ?_, trivial⟩
  · split <;> simp [timeStepsEntered]
  · split <;> simp [timeStepsCompleted]

/-- Below `INT_MAX` no increment overflows: with enough fuel the
time-stepping loop started at counter `i` runs its body once for each of
`i, i + 1, ..., timesteps`, not at all when `i > timesteps`, and then leaves
by its guard. -/
theorem timeLoop_counts (timesteps : Int) (body : Int → Driver → Driver)
    (hbody : ∀ i d, timeStepsEntered (body i d).log = timeStepsEntered d.log ++ [i]
      ∧ timeStepsCompleted (body i d).log = timeStepsCompleted d.log + 1
      ∧ (body i d).inter = wrapInt32 (d.inter + 1))
    (hts : timesteps < 2147483647) :
    ∀ (fuel : Nat) (i : Int) (d : Driver), (timesteps + 1 - i).toNat ≤ fuel →
      -2147483648 ≤ i → -2147483648 ≤ d.inter →
      d.inter + ((timesteps + 1 - i).toNat : Int) ≤ 2147483647 →
      timeStepsEntered (timeLoop timesteps body fuel i d).log
          = timeStepsEntered d.log
            ++ (List.range (timesteps + 1 - i).toNat).map (fun (k : Nat) => i + (k : Int))
      ∧ timeStepsCompleted (timeLoop timesteps body fuel i d).log
          = timeStepsCompleted d.log + (timesteps + 1 - i).toNat
      ∧ (timeLoop timesteps body fuel i d).inter
          = d.inter + ((timesteps + 1 - i).toNat : Int) := by
  intro fuel
  induction fuel with
  | zero =>
    intro i d hf _ _ _
    have h0 : (timesteps + 1 - i).toNat = 0 := by omega
    rw [h0]
    simp [timeLoop]
  | succ fuel ih =>
    intro i d hf hi0 hd0 hd1
    rw [timeLoop]
    by_cases hi : i ≤ timesteps
    · rw [if_pos hi, wrapInt32_of_range (i + 1) (by omega) (by omega)]
      obtain ⟨b1, b2, b3⟩ := hbody i d
      have hm : (timesteps + 1 - i).toNat = (timesteps + 1 - (i + 1)).toNat + 1 := by omega
      have hb3 : (body i d).inter = d.inter + 1 := by
        rw [b3, wrapInt32_of_range (d.inter + 1) (by omega) (by omega)]
      obtain ⟨h1, h2, h3⟩ := ih (i + 1) (body i d) (by omega) (by omega)
        (by rw [hb3]; omega) (by rw [hb3]; omega)
      rw [h1, h2, h3, b1, b2, hb3, hm]
      refine ⟨?_, by omega, by push_cast; omega⟩
      rw [List.range_succ_eq_map, List.map_cons, List.map_map, List.append_assoc]
      congr 1
      simp only [List.singleton_append, Nat.cast_zero, add_zero, List.cons.injEq, true_and]
      apply List.map_congr_left
      intro k _
      simp only [Function.comp, Nat.succ_eq_add_one, Nat.cast_add, Nat.cast_one]
      omega
    · rw [if_neg hi]
      have h0 : (timesteps + 1 - i).toNat = 0 := by omega
      rw [h0]
      simp

/-- With `timesteps = INT_MAX` the guard `i <= timesteps` holds for every
`int`: the loop runs its body as long as it has fuel. -/
theorem timeLoop_no_exit (body : Int → Driver → Driver)
    (hbody : ∀ i d, timeStepsCompleted (body i d).log = timeStepsCompleted d.log + 1) :
    ∀ (fuel : Nat) (i : Int) (d : Driver), i ≤ 2147483647 →
      timeStepsCompleted (timeLoop 2147483647 body fuel i d).log
        = timeStepsCompleted d.log + fuel := by
  intro fuel
  induction fuel with
  | zero => intro i d _; simp [timeLoop]
  | succ fuel ih =>
    intro i d hi
    rw [timeLoop, if_pos hi, ih _ _ (wrapInt32_range (i + 1)).2, hbody i d]
    omega

theorem main_steady_counts (cfg : Config) (num_procs : Nat)
    (res : Int → Nat → Nat → Residuals) (h : (num_procs : Int) = cfg.n_splits)
    (hts : cfg.timesteps < 2147483647) :
    timeStepsEntered (main_steady cfg num_procs res).2.log
        = (List.range (cfg.timesteps + 1).toNat).map (fun (k : Nat) => (k : Int))
    ∧ timeStepsCompleted (main_steady cfg num_procs res).2.log = (cfg.timesteps + 1).toNat
    ∧ (main_steady cfg num_procs res).2.inter = ((cfg.timesteps + 1).toNat : Int) := by
  obtain ⟨h1, h2, h3⟩ := timeLoop_counts cfg.timesteps
    (steadyTimeStep num_procs cfg.mu cfg.dt res)
    (steadyTimeStep_counts num_procs cfg.mu cfg.dt res) hts
    (cfg.timesteps + 1).toNat 0
    { alpha_p := 1 / 10, alpha_uv := 1 / 2, inter := 0,
      log := [Call.MPI_Init, Call.MPI_Barrier] ++ zeroFieldsCalls
        ++ [Call.loadMeshDataFromSteady] }
    (by rw [sub_zero]) (by omega) (by simp) (by simp only [sub_zero]; omega)
  rw [sub_zero] at h1 h2 h3
  simp only [main_steady, h, ne_eq, not_true_eq_false, if_false, timeStepsEntered_append,
    timeStepsCompleted_append]
  rw [h1, h2, h3]
  refine ⟨?_, ?_, ?_⟩
  · simp [timeStepsEntered, zeroFieldsCalls]
  · simp [timeStepsCompleted, zeroFieldsCalls]
  · simp

theorem main_unsteady_counts (root : Config) (others : List Config)
    (res : Int → Nat → Nat → Residuals)
    (h : ((others.length + 1 : Nat) : Int) = root.n_splits)
    (hts : root.timesteps < 2147483647) :
    timeStepsEntered (main_unsteady root others res).2.log
        = (List.range (root.timesteps + 1).toNat).map (fun (k : Nat) => (k : Int))
    ∧ timeStepsCompleted (main_unsteady root others res).2.log
        = (root.timesteps + 1).toNat
    ∧ (main_unsteady root others res).2.inter = ((root.timesteps + 1).toNat : Int) := by
  obtain ⟨h1, h2, h3⟩ := timeLoop_counts root.timesteps
    (unsteadyTimeStep (others.length + 1) root.mu root.dt res)
    (unsteadyTimeStep_counts (others.length + 1) root.mu root.dt res) hts
    (root.timesteps + 1).toNat 0
    { alpha_p := 1 / 2, alpha_uv := 7 / 10, inter := 0,
      log := [Call.MPI_Init] ++ zeroFieldsCalls ++ [Call.loadMeshDataFromSteady] }
    (by rw [sub_zero]) (by omega) (by simp) (by simp only [sub_zero]; omega)
  rw [sub_zero] at h1 h2 h3
  have hs := consistencyCheck_after_broadcast root others
  have hl : (broadcastConfig (root :: others)).length = others.length + 1 := by
    rw [broadcastConfig_eq_replicate, List.length_replicate]
  simp only [main_unsteady, unsteadyFromCheck, hs, broadcastConfig_head, hl, h, ne_eq,
    not_true_eq_false, if_false, Bool.false_eq_true, timeStepsEntered_append,
    timeStepsCompleted_append]
  rw [h1, h2, h3]
  refine ⟨?_, ?_, ?_⟩
  · simp [timeStepsEntered, zeroFieldsCalls]
  · simp [timeStepsCompleted, zeroFieldsCalls]
  · simp

/-- Counterexample to C13 as stated: with `timesteps = INT_MAX =
2147483647` the increment of `i = INT_MAX` wraps to `INT_MIN`, for which the
guard `i <= timesteps` holds again; given room for `timesteps + 2` passes
the loop of either driver makes all of them, one more than `timesteps + 1`. -/
theorem time_loop_overflows_at_int_max :
    wrapInt32 (2147483647 + 1) = -2147483648
    ∧ (-2147483648 : Int) ≤ 2147483647
    ∧ timeStepsCompleted (timeLoop 2147483647
        (steadyTimeStep 2 sampleConfig.mu sampleConfig.dt (fun _ => dropToZero))
        (2147483647 + 2) 0 steadyLoopStart).log = 2147483647 + 2
    ∧ timeStepsCompleted (timeLoop 2147483647
        (unsteadyTimeStep 2 sampleConfig.mu sampleConfig.dt (fun _ => dropToZero))
        (2147483647 + 2) 0 unsteadyLoopStart).log = 2147483647 + 2 := by
  refine ⟨by decide, by decide, ?_, ?_⟩
  · rw [timeLoop_no_exit _ (fun i d => (steadyTimeStep_counts _ _ _ _ i d).2.1) _ _ _
      (by decide)]
    simp [timeStepsCompleted, steadyLoopStart, zeroFieldsCalls]
  · rw [timeLoop_no_exit _ (fun i d => (unsteadyTimeStep_counts _ _ _ _ i d).2.1) _ _ _
      (by decide)]
    simp [timeStepsCompleted, unsteadyLoopStart, zeroFieldsCalls]

/-- C13 (amended): for every value of `timesteps` below `INT_MAX`, in a run
that passes the process-count check the body of the time-stepping loop is
entered with the counter values `0, 1, ..., timesteps` in this order and
runs to its closing `u0 := u_star` each time: exactly `timesteps + 1` times
when `timesteps ≥ 0` and zero times when `timesteps < 0`, in the steady and
in the unsteady driver; the counter `inter` ends at that number, and the
loop leaves by its guard: more fuel than `timesteps + 1` passes gives the
same count. -/
theorem time_loop_body_count (cfg root : Config) (num_procs : Nat) (others : List Config)
    (res : Int → Nat → Nat → Residuals) :
    ((num_procs : Int) = cfg.n_splits → cfg.timesteps < 2147483647 →
      timeStepsEntered (main_steady cfg num_procs res).2.log
          = (List.range (cfg.timesteps + 1).toNat).map (fun (k : Nat) => (k : Int))
      ∧ (main_steady cfg num_procs res).2.inter
          = (timeStepsCompleted (main_steady cfg num_procs res).2.log : Int)
      ∧ (0 ≤ cfg.timesteps →
          (timeStepsCompleted (main_steady cfg num_procs res).2.log : Int)
            = cfg.timesteps + 1)
      ∧ (cfg.timesteps < 0 →
          timeStepsCompleted (main_steady cfg num_procs res).2.log = 0)
      ∧ ∀ fuel, (cfg.timesteps + 1).toNat ≤ fuel →
          timeStepsCompleted (timeLoop cfg.timesteps
            (steadyTimeStep num_procs cfg.mu cfg.dt res) fuel 0 steadyLoopStart).log
            = (cfg.timesteps + 1).toNat)
    ∧ (((others.length + 1 : Nat) : Int) = root.n_splits → root.timesteps < 2147483647 →
      timeStepsEntered (main_unsteady root others res).2.log
          = (List.range (root.timesteps + 1).toNat).map (fun (k : Nat) => (k : Int))
      ∧ (main_unsteady root others res).2.inter
          = (timeStepsCompleted (main_unsteady root others res).2.log : Int)
      ∧ (0 ≤ root.timesteps →
          (timeStepsCompleted (main_unsteady root others res).2.log : Int)
            = root.timesteps + 1)
      ∧ (root.timesteps < 0 →
          timeStepsCompleted (main_unsteady root others res).2.log = 0)
      ∧ ∀ fuel, (root.timesteps + 1).toNat ≤ fuel →
          timeStepsCompleted (timeLoop root.timesteps
            (unsteadyTimeStep (others.length + 1) root.mu root.dt res) fuel 0
            unsteadyLoopStart).log = (root.timesteps + 1).toNat) := by
  constructor
  · intro h hlt
    obtain ⟨h1, h2, h3⟩ := main_steady_counts cfg num_procs res h hlt
    refine ⟨h1, by rw [h2, h3], ?_, ?_, ?_⟩
    · intro hts; rw [h2]; omega
    · intro hts; rw [h2]; omega
    · intro fuel hfuel
      have hc := (timeLoop_counts cfg.timesteps (steadyTimeStep num_procs cfg.mu cfg.dt res)
        (steadyTimeStep_counts num_procs cfg.mu cfg.dt res) hlt fuel 0 steadyLoopStart
        (by rw [sub_zero]; exact hfuel) (by omega) (by simp [steadyLoopStart])
        (by simp only [sub_zero, steadyLoopStart]; omega)).2.1
      rw [hc, sub_zero]
      simp [timeStepsCompleted, steadyLoopStart, zeroFieldsCalls]
  · intro h hlt
    obtain ⟨h1, h2, h3⟩ := main_unsteady_counts root others res h hlt
    refine ⟨h1, by rw [h2, h3], ?_, ?_, ?_⟩
    · intro hts; rw [h2]; omega
    · intro hts; rw [h2]; omega
    · intro fuel hfuel
      have hc := (timeLoop_counts root.timesteps
        (unsteadyTimeStep (others.length + 1) root.mu root.dt res)
        (unsteadyTimeStep_counts (others.length + 1) root.mu root.dt res) hlt fuel 0
        unsteadyLoopStart
        (by rw [sub_zero]; exact hfuel) (by omega) (by simp [unsteadyLoopStart])
        (by simp only [sub_zero, unsteadyLoopStart]; omega)).2.1
      rw [hc, sub_zero]
      simp [timeStepsCompleted, unsteadyLoopStart, zeroFieldsCalls]

/-- Witness of C13 (amended): the sample parameters (`timesteps = 1`) on two
processes, in both drivers. -/
theorem time_loop_body_count_witness :
    (timeStepsEntered (main_steady sampleConfig 2 (fun _ => dropToZero)).2.log
        = (List.range (sampleConfig.timesteps + 1).toNat).map (fun (k : Nat) => (k : Int))
      ∧ (timeStepsCompleted (main_steady sampleConfig 2 (fun _ => dropToZero)).2.log : Int)
          = sampleConfig.timesteps + 1)
    ∧ (timeStepsCompleted
        (main_unsteady sampleConfig [sampleConfig] (fun _ => dropToZero)).2.log : Int)
          = sampleConfig.timesteps + 1 :=
  ⟨⟨((time_loop_body_count sampleConfig sampleConfig 2 [sampleConfig]
        (fun _ => dropToZero)).1 (by decide) (by decide)).1,
    ((time_loop_body_count sampleConfig sampleConfig 2 [sampleConfig]
        (fun _ => dropToZero)).1 (by decide) (by decide)).2.2.1 (by decide)⟩,
   ((time_loop_body_count sampleConfig sampleConfig 2 [sampleConfig]
      (fun _ => dropToZero)).2 (by decide) (by decide)).2.2.1 (by decide)⟩

/-! ## When a load fails -/

theorem loadLoop_none_iff :
    ∀ (lines : List Line) (cols rows : Int) (values : List Double), cols ≠ -1 →
      (loadLoop lines cols rows values = none
        ↔ ∃ line ∈ lines, ((readRow line).length : Int) ≠ cols) := by
  intro lines
  induction lines with
  | nil => intro cols rows values _; simp [loadLoop]
  | cons line rest ih =>
    intro cols rows values hc
    rw [loadLoop]
    simp only [hc, if_false]
    by_cases hlen : ((readRow line).length : Int) ≠ cols
    · rw [if_pos hlen]
      exact ⟨fun _ => ⟨line, List.mem_cons_self _ _, hlen⟩, fun _ => rfl⟩
    · rw [if_neg hlen, ih cols (rows + 1) (values ++ readRow line) hc]
      constructor
      · rintro ⟨l, hl, hne⟩
        exact ⟨l, List.mem_cons_of_mem _ hl, hne⟩
      · rintro ⟨l, hl, hne⟩
        rcases List.mem_cons.mp hl with h | h
        · rw [h] at hne; exact absurd hne hlen
        · exact ⟨l, h, hne⟩

theorem loadLoop_start_none_iff (lines : List Line) :
    loadLoop lines (-1) 0 [] = none
      ↔ ∃ line ∈ lines, (readRow line).length ≠ (readRow (lines.headD [])).length := by
  cases lines with
  | nil => simp [loadLoop]
  | cons first rest =>
    rw [loadLoop]
    simp only [if_true, List.headD_cons]
    rw [loadLoop_none_iff rest _ _ _ (by omega)]
    constructor
    · rintro ⟨l, hl, hne⟩
      exact ⟨l, List.mem_cons_of_mem _ hl, fun h => hne (by rw [h])⟩
    · rintro ⟨l, hl, hne⟩
      rcases List.mem_cons.mp hl with h | h
      · rw [h] at hne; exact absurd rfl hne
      · exact ⟨l, h, fun h2 => hne (by exact_mod_cast h2)⟩

theorem readRow_stops_at_bad (vs : List Double) (rest : List Tok) :
    readRow (vs.map Tok.num ++ Tok.bad :: rest) = vs := by
  induction vs with
  | nil => rfl
  | cons x t ih =>
    rw [List.map_cons, List.cons_append, readRow, ih]

theorem loadMatrixFromFile_false_iff_ragged (fs : FileSystem) (filename : String)
    (mat : MatrixXd) (lines : List Line) (hopen : fs filename = some lines) :
    (loadMatrixFromFile fs filename mat).1 = false
      ↔ ∃ line ∈ lines, (readRow line).length ≠ (readRow (lines.headD [])).length := by
  rw [loadMatrixFromFile_false_iff, ← loadLoop_start_none_iff]
  constructor
  · rintro (h | ⟨l, h1, h2⟩)
    · rw [hopen] at h; cases h
    · rw [hopen] at h1
      cases h1
      exact h2
  · intro h
    exact Or.inr ⟨lines, hopen, h⟩

/-- C14: for an openable file, `loadMatrixFromFile` returns false exactly when
some line yields another number of leading numeric tokens than the first
line. The count of a line stops at its first token that is not a number, a
blank line counts 0, so a file that holds a blank line and a line with at
least one leading number is refused, and a file with no lines is not
refused. -/
theorem load_fails_iff_ragged (fs : FileSystem) (filename : String) (mat : MatrixXd)
    (lines : List Line) (hopen : fs filename = some lines) :
    ((loadMatrixFromFile fs filename mat).1 = false
      ↔ ∃ line ∈ lines, (readRow line).length ≠ (readRow (lines.headD [])).length)
    ∧ (∀ (vs : List Double) (rest : List Tok),
        readRow (vs.map Tok.num ++ Tok.bad :: rest) = vs)
    ∧ readRow [] = []
    ∧ (∀ data ∈ lines, [] ∈ lines → 1 ≤ (readRow data).length →
        (loadMatrixFromFile fs filename mat).1 = false)
    ∧ (lines = [] → (loadMatrixFromFile fs filename mat).1 = true) := by
  have hiff := loadMatrixFromFile_false_iff_ragged fs filename mat lines hopen
  refine ⟨hiff, readRow_stops_at_bad, rfl, ?_, ?_⟩
  · intro data hdata hblank hlen
    rw [hiff]
    by_cases h0 : (readRow (lines.headD [])).length = 0
    · exact ⟨data, hdata, by omega⟩
    · refine ⟨[], hblank, ?_⟩
      intro h
      apply h0
      rw [← h]
      rfl
  · intro hnil
    cases hflag : (loadMatrixFromFile fs filename mat).1 with
    | true => rfl
    | false =>
      rw [hiff, hnil] at hflag
      simp at hflag

/-- Witness of C14: a file of three lines, `1 x 2`, `3` and a blank line,
where the first two lines count one number each and the blank line none. -/
theorem load_fails_iff_ragged_witness :
    raggedFiles "steady/p_0.dat" = some [[Tok.num 1, Tok.bad, Tok.num 2], [Tok.num 3], []]
    ∧ (loadMatrixFromFile raggedFiles "steady/p_0.dat" (Map [] 0 0)).1 = false :=
  ⟨rfl,
   (load_fails_iff_ragged raggedFiles "steady/p_0.dat" (Map [] 0 0)
      [[Tok.num 1, Tok.bad, Tok.num 2], [Tok.num 3], []] rfl).2.2.2.1
      [Tok.num 3] (by simp) (by simp) (by simp [readRow])⟩

/-! ## The consistency check after the broadcasts -/

theorem unsteadyTimeStep_no_abort (P : Nat) (mu dt : Double)
    (res : Int → Nat → Nat → Residuals) (i : Int) (d : Driver)
    (hd : ∀ code, Call.MPI_Abort code ∉ d.log) :
    ∀ code, Call.MPI_Abort code ∉ (unsteadyTimeStep P mu dt res i d).log := by
  intro code hc
  simp only [unsteadyTimeStep, List.mem_append, List.mem_cons, List.mem_singleton,
    List.not_mem_nil, or_false] at hc
  rcases hc with (((h | h) | h) | h) | h
  · exact hd code h
  · rcases h with h | h <;> cases h
  · rcases outerLoop_call_mem _ _ _ _ _ h with h2 | h2
    · simp [unsteadyOuterBody] at h2
    · cases h2
  · split at h
    · rw [List.mem_singleton] at h; cases h
    · simp at h
  · rcases h with h | h <;> cases h

theorem main_unsteady_no_abort (root : Config) (others : List Config)
    (res : Int → Nat → Nat → Residuals) :
    (main_unsteady root others res).1 ≠ Exit.aborted 1
    ∧ ∀ code, Call.MPI_Abort code ∉ (main_unsteady root others res).2.log := by
  have hs := consistencyCheck_after_broadcast root others
  have hinv := timeLoop_invariant (broadcastConfig (root :: others) |>.headD root).timesteps
    (unsteadyTimeStep (broadcastConfig (root :: others)).length
      (broadcastConfig (root :: others) |>.headD root).mu
      (broadcastConfig (root :: others) |>.headD root).dt res)
    (fun d => ∀ code, Call.MPI_Abort code ∉ d.log)
    (unsteadyTimeStep_no_abort _ _ _ res)
    ((broadcastConfig (root :: others) |>.headD root).timesteps + 1).toNat 0
    { alpha_p := 1 / 2, alpha_uv := 7 / 10, inter := 0,
      log := [Call.MPI_Init] ++ zeroFieldsCalls ++ [Call.loadMeshDataFromSteady] }
    (by intro code hc; simp [zeroFieldsCalls] at hc)
  constructor
  · rcases unsteadyFromCheck_passes
      ((broadcastConfig (root :: others)).headD root) _ res hs with h | h
    · simp only [main_unsteady]; rw [h]; simp
    · simp only [main_unsteady]; rw [h]; simp
  · intro code hc
    simp only [main_unsteady, unsteadyFromCheck, hs, Bool.false_eq_true, if_false] at hc
    split at hc
    · simp at hc
    · simp only [List.mem_append, List.mem_cons, List.mem_singleton, List.not_mem_nil,
        or_false] at hc
      rcases hc with h | h
      · exact hinv code h
      · rcases h with h | h | h <;> cases h

/-- C15: in the unsteady driver, whatever values the ranks `root :: others`
hold at the start, after the broadcasts every rank holds the values of rank
0; for each of `dx`, `dy`, `dt`, `mu`, `timesteps` and `n_splits` the
all-reduced maximum equals the all-reduced minimum; on every rank every
gathered folder string equals the local one, so `folder_match` is 1; the
three consistency results are positive, the abort test is false, and the
run neither ends in an abort nor calls `MPI_Abort`. -/
theorem broadcast_makes_check_pass (root : Config) (others : List Config)
    (res : Int → Nat → Nat → Residuals) :
    (broadcastConfig (root :: others)).length = (root :: others).length
    ∧ (∀ c ∈ broadcastConfig (root :: others), c = root)
    ∧ (∀ f ∈ local_vals,
        MPI_Allreduce_MAX ((broadcastConfig (root :: others)).map f)
          = MPI_Allreduce_MIN ((broadcastConfig (root :: others)).map f))
    ∧ MPI_Allreduce_MAX ((broadcastConfig (root :: others)).map (fun c => c.timesteps))
        = MPI_Allreduce_MIN ((broadcastConfig (root :: others)).map (fun c => c.timesteps))
    ∧ MPI_Allreduce_MAX ((broadcastConfig (root :: others)).map (fun c => c.n_splits))
        = MPI_Allreduce_MIN ((broadcastConfig (root :: others)).map (fun c => c.n_splits))
    ∧ (∀ c ∈ broadcastConfig (root :: others),
        (∀ g ∈ MPI_Allgather ((broadcastConfig (root :: others)).map
            (fun k => k.mesh_folder)), g = c.mesh_folder)
        ∧ folder_match c.mesh_folder (MPI_Allgather
            ((broadcastConfig (root :: others)).map (fun k => k.mesh_folder))) = 1)
    ∧ float_consistent (broadcastConfig (root :: others)) = true
    ∧ int_consistent (broadcastConfig (root :: others)) = true
    ∧ global_folder_match (broadcastConfig (root :: others)) = 1
    ∧ consistencyCheckAborts (broadcastConfig (root :: others)) = false
    ∧ (main_unsteady root others res).1 ≠ Exit.aborted 1
    ∧ ∀ code, Call.MPI_Abort code ∉ (main_unsteady root others res).2.log := by
  have hrun := main_unsteady_no_abort root others res
  have hno := consistencyCheck_after_broadcast root others
  rw [broadcastConfig_eq_replicate] at hno ⊢
  have hf : float_consistent (List.replicate (others.length + 1) root) = true := by
    simp only [float_consistent, local_vals, List.map_replicate,
      allreduceMin_replicate, allreduceMax_replicate]
    simp
  have hi : int_consistent (List.replicate (others.length + 1) root) = true := by
    simp only [int_consistent, List.map_replicate,
      allreduceMin_replicate, allreduceMax_replicate]
    simp
  have hg : global_folder_match (List.replicate (others.length + 1) root) = 1 := by
    simp only [global_folder_match, MPI_Allgather, List.map_replicate,
      folder_match_replicate, allreduceMin_replicate]
  refine ⟨by simp, ?_, ?_, ?_, ?_, ?_, hf, hi, hg, hno, hrun.1, hrun.2⟩
  · intro c hc
    exact List.eq_of_mem_replicate hc
  · intro f _
    rw [List.map_replicate, allreduceMax_replicate, allreduceMin_replicate]
  · rw [List.map_replicate, allreduceMax_replicate, allreduceMin_replicate]
  · rw [List.map_replicate, allreduceMax_replicate, allreduceMin_replicate]
  · intro c hc
    have hcr : c = root := List.eq_of_mem_replicate hc
    subst hcr
    simp only [MPI_Allgather, List.map_replicate]
    exact ⟨fun g hgm => List.eq_of_mem_replicate hgm, folder_match_replicate _ _⟩

end TaihoCFD
